import Mathlib

/-
Verification of the axe repository's core subsystems against its
natural-language specification.

Shallow embedding conventions:
 - Go strings are modelled as `List Char` (`GoStr`); Go byte streams as
   `List Nat` of byte values.
 - Go maps that are only built by insertion and read by key are modelled as
   association lists with overwriting insert (`insertA`) and first-match
   lookup (`lookupA`).  Where Go map iteration order is observable
   (`patchToCommit`, `applyCommit`) the model iterates in insertion order,
   a deterministic refinement of Go's unspecified order; counterexamples
   below are chosen to be order-independent.
 - Functions returning `(value, error)` in Go are modelled with
   `Except`/`Option`; a Go `(-1, 0)` not-found result is `none`.
 - Loops are modelled with an explicit fuel argument so everything is
   executable; callers pass fuel strictly larger than the number of loop
   iterations possible, and theorems about parse success are stated so
   that fuel exhaustion (constructor `PErr.fuelExhausted`) is vacuous.
-/

set_option maxRecDepth 4000

abbrev GoStr := List Char

/-- Convert a Lean string literal into the Go-string model. -/
def gs (s : String) : GoStr := s.data

/-- Go strings.HasPrefix. -/
def goHasPre (s pre : GoStr) : Bool := pre.isPrefixOf s

/-- Go `norm` from code/v4a: strip all trailing CR characters. -/
def norm (line : GoStr) : GoStr := (line.reverse.dropWhile (fun c => c = '\r')).reverse

/-- Go unicode.IsSpace restricted to the Latin-1 range (the full table also
holds exotic Unicode spaces, never relevant here). -/
def goIsSpace (c : Char) : Bool :=
  c.toNat = 32 || c.toNat = 9 || c.toNat = 10 || c.toNat = 11 || c.toNat = 12 ||
  c.toNat = 13 || c.toNat = 0x85 || c.toNat = 0xA0

/-- Go strings.TrimRightFunc(s, unicode.IsSpace), i.e. rstripSpaces. -/
def rstripSpaces (s : GoStr) : GoStr := (s.reverse.dropWhile goIsSpace).reverse

/-- Go strings.TrimSpace. -/
def trimSpace (s : GoStr) : GoStr := rstripSpaces (s.dropWhile goIsSpace)

/-- Go strings.Split(text, newline): split on LF only, keeping empty pieces;
always returns at least one piece. -/
def splitNlAux : GoStr → GoStr → List GoStr
  | acc, [] => [acc.reverse]
  | acc, '\n' :: rest => acc.reverse :: splitNlAux [] rest
  | acc, c :: rest => splitNlAux (c :: acc) rest

def splitOnNewline (s : GoStr) : List GoStr := splitNlAux [] s

/-- Go splitLinesLikePython: split on LF, CRLF, or lone CR, each a single
break; a trailing fragment is kept only when non-empty. -/
def splitLinesAux : GoStr → GoStr → List GoStr
  | acc, [] => if acc.isEmpty then [] else [acc.reverse]
  | acc, '\r' :: '\n' :: rest => acc.reverse :: splitLinesAux [] rest
  | acc, '\r' :: rest => acc.reverse :: splitLinesAux [] rest
  | acc, '\n' :: rest => acc.reverse :: splitLinesAux [] rest
  | acc, c :: rest => splitLinesAux (c :: acc) rest

def splitLinesLikePython (s : GoStr) : List GoStr := splitLinesAux [] s

/-- First-match lookup in an association list (Go map read). -/
def lookupA {α : Type} : List (GoStr × α) → GoStr → Option α
  | [], _ => none
  | (k0, v) :: rest, k => if k0 = k then some v else lookupA rest k

/-- Overwriting insert in an association list (Go map write). -/
def insertA {α : Type} : List (GoStr × α) → GoStr → α → List (GoStr × α)
  | [], k, v => [(k, v)]
  | (k0, v0) :: rest, k, v =>
      if k0 = k then (k, v) :: rest else (k0, v0) :: insertA rest k v

-- --------------------------------------------------------------------- --
-- v4a domain objects (code/v4a patch engine)
-- --------------------------------------------------------------------- --

inductive ActionType
  | add | delete | update
deriving DecidableEq, Repr

structure Chunk where
  origIndex : Nat
  delLines : List GoStr
  insLines : List GoStr
deriving DecidableEq, Repr

structure PatchAction where
  type : ActionType
  newFile : Option GoStr
  chunks : List Chunk
  movePath : GoStr
deriving DecidableEq, Repr

structure FileChange where
  type : ActionType
  oldContent : Option GoStr
  newContent : Option GoStr
  movePath : GoStr
deriving DecidableEq, Repr

/-- Error values, one constructor per diffErrorf site in code/v4a (plus the
fuel-exhaustion artifact of the embedding). -/
inductive PErr
  | unexpectedEndOfInput
  | emptyReadStrPre
  | duplicateAction (path : GoStr)
  | missingFile (path : GoStr)
  | fileExists (path : GoStr)
  | unknownLine (line : GoStr)
  | missingEndPatch
  | invalidUpdateLine (line : GoStr)
  | invalidContext (eof : Bool) (index : Nat)
  | invalidAddLine (line : GoStr)
  | invalidHunkLine (line : GoStr)
  | nothingInSection
  | missingSentinels
  | notUpdateAction
  | exceedsFileLength (path : GoStr) (idx : Nat)
  | overlappingChunks (path : GoStr) (a b : Nat)
  | addWithoutContent
  | addChangeNoContent (path : GoStr)
  | updateChangeNoContent (path : GoStr)
  | openDeleted (path : GoStr)
  | patchMustBegin
  | fuelExhausted
deriving DecidableEq, Repr

-- --------------------------------------------------------------------- --
-- Context matcher (findContextCore / findContext)
-- --------------------------------------------------------------------- --

def slicesEqual (a b : List GoStr) : Bool := a = b

def slicesEqualRStrip (a b : List GoStr) : Bool :=
  a.length = b.length && (List.zip a b).all (fun p => rstripSpaces p.1 = rstripSpaces p.2)

def slicesEqualStrip (a b : List GoStr) : Bool :=
  a.length = b.length && (List.zip a b).all (fun p => trimSpace p.1 = trimSpace p.2)

/-- The window of `k` lines starting at index `i`. -/
def window (lines : List GoStr) (i k : Nat) : List GoStr := (lines.drop i).take k

/-- One pass of findContextCore: the least `i ≥ start` with a full window
matching `context` under `cmp`.  Fuel-driven; `searchFrom` supplies enough. -/
def searchFromF (cmp : List GoStr → List GoStr → Bool) (lines context : List GoStr) :
    Nat → Nat → Option Nat
  | 0, _ => none
  | fuel + 1, i =>
      if i + context.length ≤ lines.length then
        if cmp (window lines i context.length) context then some i
        else searchFromF cmp lines context fuel (i + 1)
      else none

def searchFrom (cmp : List GoStr → List GoStr → Bool) (lines context : List GoStr)
    (start : Nat) : Option Nat :=
  searchFromF cmp lines context (lines.length + 1 - start) start

/-- Go findContextCore; `none` models the Go result `(-1, 0)`. -/
def findContextCore (lines context : List GoStr) (start : Nat) : Option (Nat × Nat) :=
  if context.isEmpty then some (start, 0)
  else
    match searchFrom slicesEqual lines context start with
    | some i => some (i, 0)
    | none =>
      match searchFrom slicesEqualRStrip lines context start with
      | some i => some (i, 1)
      | none =>
        match searchFrom slicesEqualStrip lines context start with
        | some i => some (i, 100)
        | none => none

/-- Go findContext.  In EOF mode, `lines.length - context.length` is Nat
subtraction, which matches Go's clamp of `pos` at 0. -/
def findContext (lines context : List GoStr) (start : Nat) (eof : Bool) :
    Option (Nat × Nat) :=
  match eof with
  | true =>
    match findContextCore lines context (lines.length - context.length) with
    | some r => some r
    | none =>
      match findContextCore lines context start with
      | some (i, fuzz) => some (i, fuzz + 10000)
      | none => none
  | false => findContextCore lines context start

-- --------------------------------------------------------------------- --
-- Applier (getUpdatedFile)
-- --------------------------------------------------------------------- --

def getUpdatedFileAux (path : GoStr) (origLines : List GoStr) :
    List Chunk → Nat → Except PErr (List GoStr)
  | [], origIndex => .ok (origLines.drop origIndex)
  | ch :: rest, origIndex =>
      if ch.origIndex > origLines.length then
        .error (.exceedsFileLength path ch.origIndex)
      else if origIndex > ch.origIndex then
        .error (.overlappingChunks path origIndex ch.origIndex)
      else
        match getUpdatedFileAux path origLines rest (ch.origIndex + ch.delLines.length) with
        | .error e => .error e
        | .ok tail =>
            .ok (((origLines.drop origIndex).take (ch.origIndex - origIndex)) ++
                 ch.insLines ++ tail)

/-- Go getUpdatedFile: rebuild the destination file from the original text
and the update action's chunk list. -/
def getUpdatedFile (text : GoStr) (action : PatchAction) (path : GoStr) :
    Except PErr GoStr :=
  if action.type ≠ ActionType.update then .error .notUpdateAction
  else
    match getUpdatedFileAux path (splitOnNewline text) action.chunks 0 with
    | .error e => .error e
    | .ok dest => .ok (List.intercalate (gs "\n") dest)

-- --------------------------------------------------------------------- --
-- Matcher lemmas
-- --------------------------------------------------------------------- --

theorem searchFromF_some {cmp : List GoStr → List GoStr → Bool} {lines context : List GoStr} :
    ∀ {fuel i j : Nat}, searchFromF cmp lines context fuel i = some j →
      i ≤ j ∧ j + context.length ≤ lines.length ∧
      cmp (window lines j context.length) context = true := by
  intro fuel
  induction fuel with
  | zero => intro i j h; simp [searchFromF] at h
  | succ n ih =>
      intro i j h
      simp only [searchFromF] at h
      split at h
      · split at h
        · rename_i hle hcmp
          cases h
          exact ⟨Nat.le_refl _, hle, hcmp⟩
        · obtain ⟨h1, h2, h3⟩ := ih h
          exact ⟨by omega, h2, h3⟩
      · cases h

theorem searchFromF_none {cmp : List GoStr → List GoStr → Bool} {lines context : List GoStr} :
    ∀ {fuel i : Nat}, lines.length + 1 - i ≤ fuel →
      searchFromF cmp lines context fuel i = none →
      ∀ j, i ≤ j → j + context.length ≤ lines.length →
        cmp (window lines j context.length) context = false := by
  intro fuel
  induction fuel with
  | zero =>
      intro i hf _ j hij hj
      omega
  | succ n ih =>
      intro i hf h j hij hj
      simp only [searchFromF] at h
      split at h
      · split at h
        · cases h
        · rename_i hle hcmp
          rcases Nat.eq_or_lt_of_le hij with rfl | hlt
          · exact Bool.not_eq_true _ ▸ Bool.of_not_eq_true hcmp
          · exact ih (by omega) h j hlt hj
      · omega

theorem searchFrom_none {cmp : List GoStr → List GoStr → Bool} {lines context : List GoStr}
    {start : Nat} (h : searchFrom cmp lines context start = none) :
    ∀ j, start ≤ j → j + context.length ≤ lines.length →
      cmp (window lines j context.length) context = false :=
  searchFromF_none (Nat.le_refl _) h

theorem findContextCore_bounds {lines context : List GoStr} {start j f : Nat}
    (h : findContextCore lines context start = some (j, f)) :
    start ≤ j ∧ (context ≠ [] → j + context.length ≤ lines.length) ∧
    (f = 0 ∨ f = 1 ∨ f = 100) := by
  unfold findContextCore at h
  split at h
  · rename_i hc
    cases h
    exact ⟨Nat.le_refl _, fun hne => absurd (List.isEmpty_iff.mp hc) hne, Or.inl rfl⟩
  · split at h
    · rename_i heq
      cases h
      obtain ⟨h1, h2, _⟩ := searchFromF_some heq
      exact ⟨h1, fun _ => h2, by omega⟩
    · split at h
      · rename_i heq
        cases h
        obtain ⟨h1, h2, _⟩ := searchFromF_some heq
        exact ⟨h1, fun _ => h2, by omega⟩
      · split at h
        · rename_i heq
          cases h
          obtain ⟨h1, h2, _⟩ := searchFromF_some heq
          exact ⟨h1, fun _ => h2, by omega⟩
        · cases h

theorem findContextCore_nil {lines : List GoStr} {start : Nat} :
    findContextCore lines [] start = some (start, 0) := by
  simp [findContextCore]

theorem slicesEqual_of_eq {a b : List GoStr} (h : a = b) : slicesEqual a b = true := by
  simp [slicesEqual, h]

theorem eq_of_slicesEqual {a b : List GoStr} (h : slicesEqual a b = true) : a = b := by
  simpa [slicesEqual] using h

/-- Claim C7: for every file and context, (1) if an exact (untrimmed) match
exists at or after the search start, the core matcher chooses an exact match
with fuzz 0; (2) a core match has fuzz 0 iff the matched window equals the
context exactly; (3) an EOF-anchored match either succeeds at the exact tail
position `fileLineCount - len(context)` with fuzz at most 100, or is found by
the fallback (the tail attempt having failed) with fuzz at least 10000. -/
theorem fuzz_score_characterization :
    (∀ lines context : List GoStr, ∀ start : Nat,
       (∃ i, start ≤ i ∧ i + context.length ≤ lines.length ∧
             window lines i context.length = context) →
       ∃ j, findContextCore lines context start = some (j, 0) ∧
            window lines j context.length = context) ∧
    (∀ lines context : List GoStr, ∀ start j f : Nat,
       findContextCore lines context start = some (j, f) →
       (f = 0 ↔ window lines j context.length = context)) ∧
    (∀ lines context : List GoStr, ∀ start j f : Nat,
       findContext lines context start true = some (j, f) →
       (j = lines.length - context.length ∧
          findContextCore lines context (lines.length - context.length) = some (j, f) ∧
          f ≤ 100) ∨
       (findContextCore lines context (lines.length - context.length) = none ∧
          10000 ≤ f)) := by
  have core1 : ∀ lines context : List GoStr, ∀ start : Nat,
      (∃ i, start ≤ i ∧ i + context.length ≤ lines.length ∧
            window lines i context.length = context) →
      ∃ j, findContextCore lines context start = some (j, 0) ∧
           window lines j context.length = context := by
    intro lines context start ⟨i, hsi, hil, hwin⟩
    unfold findContextCore
    by_cases hc : context.isEmpty
    · refine ⟨start, by simp [hc], ?_⟩
      have : context = [] := List.isEmpty_iff.mp hc
      simp [window, this]
    · simp only [hc, if_false]
      cases heq : searchFrom slicesEqual lines context start with
      | some k =>
          obtain ⟨_, _, hk⟩ := searchFromF_some heq
          exact ⟨k, rfl, eq_of_slicesEqual hk⟩
      | none =>
          have := searchFrom_none heq i hsi hil
          rw [slicesEqual_of_eq hwin] at this
          cases this
  refine ⟨core1, ?_, ?_⟩
  · intro lines context start j f h
    constructor
    · intro hf
      subst hf
      unfold findContextCore at h
      split at h
      · rename_i hc
        cases h
        simp [window, List.isEmpty_iff.mp hc]
      · split at h
        · rename_i heq
          cases h
          exact eq_of_slicesEqual (searchFromF_some heq).2.2
        · split at h
          · cases h
          · split at h
            · cases h
            · cases h
    · intro hwin
      by_contra hf
      unfold findContextCore at h
      split at h
      · rename_i hc
        cases h
        exact hf rfl
      · split at h
        · cases h
          exact hf rfl
        · rename_i hnone
          have hj : start ≤ j ∧ j + context.length ≤ lines.length := by
            split at h
            · rename_i heq
              cases h
              obtain ⟨a, b, _⟩ := searchFromF_some heq
              exact ⟨a, b⟩
            · split at h
              · rename_i heq
                cases h
                obtain ⟨a, b, _⟩ := searchFromF_some heq
                exact ⟨a, b⟩
              · cases h
          have := searchFrom_none hnone j hj.1 hj.2
          rw [slicesEqual_of_eq hwin] at this
          cases this
  · intro lines context start j f h
    simp only [findContext] at h
    cases htail : findContextCore lines context (lines.length - context.length) with
    | some r =>
        rw [htail] at h
        simp only [Option.some.injEq] at h
        subst h
        obtain ⟨h1, h2, h3⟩ := findContextCore_bounds htail
        left
        have hj : j = lines.length - context.length := by
          by_cases hc : context = []
          · subst hc
            rw [findContextCore_nil] at htail
            simp only [Option.some.injEq, Prod.mk.injEq] at htail
            omega
          · have h4 := h2 hc
            omega
        exact ⟨hj, rfl, by omega⟩
    | none =>
        rw [htail] at h
        cases hst : findContextCore lines context start with
        | some r =>
            obtain ⟨i2, f2⟩ := r
            rw [hst] at h
            simp only [Option.some.injEq, Prod.mk.injEq] at h
            right
            exact ⟨rfl, by omega⟩
        | none =>
            rw [hst] at h
            cases h

/-- Claim C7 witness: clause 2 applied at a concrete input where the matcher
returns fuzz 0, showing the matched window is exact. -/
theorem fuzz_score_characterization_witness :
    window [gs "a", gs "b"] 0 1 = [gs "a"] :=
  (fuzz_score_characterization.2.1 [gs "a", gs "b"] [gs "a"] 0 0 0 (by decide)).mp rfl

/-- Claim C6 counterexample: with file lines a,b,c,d,e, context [a], start 0
and an EOF-anchored hunk, no tolerance pass matches at the tail, and the
fallback returns a match at index 0 with fuzz 10000 — an index strictly
below `fileLineCount - len(context) = 4`, so the fallback search does NOT
start at `fileLineCount - len(context)` as the claim states (only the first,
tail-window attempt does). -/
theorem eof_fallback_counterexample :
    findContext [gs "a", gs "b", gs "c", gs "d", gs "e"] [gs "a"] 0 true = some (0, 10000) ∧
    findContextCore [gs "a", gs "b", gs "c", gs "d", gs "e"] [gs "a"]
      ([gs "a", gs "b", gs "c", gs "d", gs "e"].length - [gs "a"].length) = none ∧
    (0 : Nat) < [gs "a", gs "b", gs "c", gs "d", gs "e"].length - [gs "a"].length := by
  refine ⟨by decide, by decide, by decide⟩

/-- Claim C6 (amended): for an EOF-anchored hunk, the matcher first tries the
single tail window starting at `fileLineCount - len(context)` (clamped at 0,
with all three tolerance passes); when that attempt fails, a final fallback
searches from the caller's start index and adds 10000 to the fuzz score of
any match it finds. -/
theorem eof_fallback_behaviour (lines context : List GoStr) (start : Nat)
    (h : findContextCore lines context (lines.length - context.length) = none) :
    findContext lines context start true =
      (findContextCore lines context start).map (fun r => (r.1, r.2 + 10000)) := by
  simp only [findContext, h]
  cases hs : findContextCore lines context start with
  | some r => obtain ⟨i, f⟩ := r; rfl
  | none => rfl

/-- Claim C6 witness: the amended fallback behaviour applied at the concrete
counterexample input. -/
theorem eof_fallback_behaviour_witness :
    findContext [gs "a", gs "b", gs "c", gs "d", gs "e"] [gs "a"] 0 true =
      (findContextCore [gs "a", gs "b", gs "c", gs "d", gs "e"] [gs "a"] 0).map
        (fun r => (r.1, r.2 + 10000)) :=
  eof_fallback_behaviour [gs "a", gs "b", gs "c", gs "d", gs "e"] [gs "a"] 0 (by decide)

-- --------------------------------------------------------------------- --
-- C8: invalid chunk lists are rejected
-- --------------------------------------------------------------------- --

/-- The ordering violation of claim C8: some chunk's origIndex is smaller
than the previous chunk's origIndex plus the length of its delLines (the
accumulator starts at 0, so a lone first chunk never violates). -/
def chunksOverlap : Nat → List Chunk → Bool
  | _, [] => false
  | acc, c :: rest =>
      decide (c.origIndex < acc) || chunksOverlap (c.origIndex + c.delLines.length) rest

theorem getUpdatedFileAux_overlap {path : GoStr} {origLines : List GoStr} :
    ∀ {chunks : List Chunk} {acc : Nat},
      (∀ c ∈ chunks, c.origIndex ≤ origLines.length) →
      chunksOverlap acc chunks = true →
      ∃ a b, getUpdatedFileAux path origLines chunks acc =
        .error (.overlappingChunks path a b) := by
  intro chunks
  induction chunks with
  | nil => intro acc _ hov; simp [chunksOverlap] at hov
  | cons c rest ih =>
      intro acc hle hov
      simp only [chunksOverlap, Bool.or_eq_true, decide_eq_true_eq] at hov
      have hcle : c.origIndex ≤ origLines.length := hle c (List.mem_cons_self c rest)
      rcases hov with hlt | hrest
      · refine ⟨acc, c.origIndex, ?_⟩
        simp only [getUpdatedFileAux]
        rw [if_neg (by omega), if_pos (by omega)]
      · by_cases hb : c.origIndex > origLines.length
        · omega
        · by_cases hacc : acc > c.origIndex
          · exact ⟨acc, c.origIndex, by simp only [getUpdatedFileAux]; rw [if_neg (by omega), if_pos hacc]⟩
          · obtain ⟨a, b, hab⟩ := ih (fun x hx => hle x (List.mem_cons_of_mem c hx)) hrest
            refine ⟨a, b, ?_⟩
            simp only [getUpdatedFileAux]
            rw [if_neg (by omega), if_neg (by omega), hab]

theorem getUpdatedFileAux_exceeds {path : GoStr} {origLines : List GoStr} :
    ∀ {chunks : List Chunk} {acc : Nat},
      chunksOverlap acc chunks = false →
      (∃ c ∈ chunks, origLines.length < c.origIndex) →
      ∃ i, getUpdatedFileAux path origLines chunks acc =
        .error (.exceedsFileLength path i) := by
  intro chunks
  induction chunks with
  | nil => intro acc _ hex; simp at hex
  | cons c rest ih =>
      intro acc hov hex
      simp only [chunksOverlap, Bool.or_eq_false_iff, decide_eq_false_iff_not] at hov
      by_cases hb : c.origIndex > origLines.length
      · exact ⟨c.origIndex, by simp only [getUpdatedFileAux]; rw [if_pos hb]⟩
      · have hex2 : ∃ x ∈ rest, origLines.length < x.origIndex := by
          rcases hex with ⟨x, hx, hxl⟩
          rcases List.mem_cons.mp hx with rfl | hxr
          · omega
          · exact ⟨x, hxr, hxl⟩
        obtain ⟨i, hi⟩ := ih hov.2 hex2
        refine ⟨i, ?_⟩
        simp only [getUpdatedFileAux]
        rw [if_neg (by omega), if_neg (by omega), hi]

/-- Claim C8: an update action whose chunk list violates the ordering
invariant (with every origIndex within the file) is rejected with an
overlapping-chunks error; a chunk list whose ordering is fine but holds a
chunk whose origIndex exceeds the file's line count is rejected with an
exceeds-file-length error; in particular the chunk list
[(1, del=[b], ins=[]), (1, del=[], ins=[x])] against file a,b,c yields the
overlapping-chunks error, never content. -/
theorem invalid_chunks_rejected :
    (∀ (text path mp : GoStr) (chunks : List Chunk),
       (∀ c ∈ chunks, c.origIndex ≤ (splitOnNewline text).length) →
       chunksOverlap 0 chunks = true →
       ∃ a b, getUpdatedFile text ⟨ActionType.update, none, chunks, mp⟩ path =
         .error (.overlappingChunks path a b)) ∧
    (∀ (text path mp : GoStr) (chunks : List Chunk),
       chunksOverlap 0 chunks = false →
       (∃ c ∈ chunks, (splitOnNewline text).length < c.origIndex) →
       ∃ i, getUpdatedFile text ⟨ActionType.update, none, chunks, mp⟩ path =
         .error (.exceedsFileLength path i)) ∧
    getUpdatedFile (gs "a\nb\nc")
        ⟨ActionType.update, none, [⟨1, [gs "b"], []⟩, ⟨1, [], [gs "x"]⟩], []⟩ (gs "t") =
      .error (.overlappingChunks (gs "t") 2 1) := by
  refine ⟨?_, ?_, by rfl⟩
  · intro text path mp chunks hle hov
    obtain ⟨a, b, hab⟩ := getUpdatedFileAux_overlap hle hov
    exact ⟨a, b, by simp only [getUpdatedFile]; rw [if_neg (by simp), hab]⟩
  · intro text path mp chunks hov hex
    obtain ⟨i, hi⟩ := getUpdatedFileAux_exceeds hov hex
    exact ⟨i, by simp only [getUpdatedFile]; rw [if_neg (by simp), hi]⟩

/-- Claim C8 witness: the overlap branch applied at the test suite's concrete
chunk list. -/
theorem invalid_chunks_rejected_witness :
    ∃ a b, getUpdatedFile (gs "a\nb\nc")
        ⟨ActionType.update, none, [⟨1, [gs "b"], []⟩, ⟨1, [], [gs "x"]⟩], []⟩ (gs "t") =
      .error (.overlappingChunks (gs "t") a b) :=
  invalid_chunks_rejected.1 (gs "a\nb\nc") (gs "t") []
    [⟨1, [gs "b"], []⟩, ⟨1, [], [gs "x"]⟩] (by decide) (by decide)

-- --------------------------------------------------------------------- --
-- C9: tool-call classifier fallback (Runner.toolCallChecker / streamFrame)
-- --------------------------------------------------------------------- --

structure ToolCall where
  id : GoStr
  fnName : GoStr
  args : GoStr
deriving DecidableEq, Repr

structure StreamMsg where
  content : GoStr
  toolCalls : List ToolCall
deriving DecidableEq, Repr

/-- Observable effect of Runner.streamFrame on one message: either a list of
chunks sent to the output channel, or a Go panic. -/
inductive FrameEffect
  | emits (chunks : List GoStr)
  | panics
deriving DecidableEq, Repr

/-- Go Runner.streamFrame: emit the message content when non-empty; panic
with message-has-tool-calls when the content is empty but tool calls are
present; otherwise emit nothing. -/
def streamFrame (m : StreamMsg) : FrameEffect :=
  if m.content ≠ [] then .emits [m.content]
  else if m.toolCalls.length > 0 then .panics
  else .emits []

/-- Routing decision of one iteration of Runner.toolCallChecker's loop for a
message that arrived without error: zero or multiple tool calls go to
streamFrame, exactly one goes to the per-call streamer. -/
inductive RouteEffect
  | frame (e : FrameEffect)
  | streamed (call : ToolCall)
deriving DecidableEq, Repr

def classifyMsg (m : StreamMsg) : RouteEffect :=
  match m.toolCalls with
  | [] => .frame (streamFrame m)
  | [c] => .streamed c
  | _ :: _ :: _ => .frame (streamFrame m)

/-- Claim C9 (code bug evidence): a streamed message carrying two tool-call
fragments and empty textual content is routed to streamFrame, which panics
instead of emitting the message as a frame and continuing; the fallback is
panic-free only when the message content is non-empty. -/
theorem multi_toolcall_fallback_panics :
    classifyMsg ⟨[], [⟨gs "A", gs "f", gs "x"⟩, ⟨gs "B", gs "g", gs "y"⟩]⟩ =
      .frame .panics ∧
    classifyMsg ⟨gs "hello", [⟨gs "A", gs "f", gs "x"⟩, ⟨gs "B", gs "g", gs "y"⟩]⟩ =
      .frame (.emits [gs "hello"]) := by
  refine ⟨by rfl, by rfl⟩

-- --------------------------------------------------------------------- --
-- C10: CLI tool environment precedence (clitool.MergeEnv / parseEnvKVs)
-- --------------------------------------------------------------------- --

/-- Build a Go map from a list of key/value pairs by repeated insertion. -/
def toMapA (l : List (GoStr × GoStr)) : List (GoStr × GoStr) :=
  l.foldl (fun m kv => insertA m kv.1 kv.2) []

/-- Go clitool.MergeEnv: a fresh map holding base overlaid by overrides —
overrides win on key collisions. -/
def MergeEnv (base overrides : List (GoStr × GoStr)) : List (GoStr × GoStr) :=
  overrides.foldl (fun m kv => insertA m kv.1 kv.2)
    (base.foldl (fun m kv => insertA m kv.1 kv.2) [])

/-- Go clitool.parseEnvKVs: trim each entry, skip empties and entries whose
first equals sign is absent or at position 0; key is the trimmed text before
the first equals sign, value the raw text after it. -/
def parseEnvKVs (pairs : List GoStr) : List (GoStr × GoStr) :=
  pairs.foldl
    (fun out kv0 =>
      let kv := trimSpace kv0
      if kv = [] then out
      else
        match kv.findIdx? (fun c => c = '=') with
        | none => out
        | some 0 => out
        | some eq => insertA out (trimSpace (kv.take eq)) (kv.drop (eq + 1)))
    []

/-- Env computation of CliTool.InvokableRun (and RunDefinition): the
definition env merged with the parsed inline KEY=VAL assignments, the latter
as overrides.  The inline assignments arrive from the external shell-word
splitter, modelled here as an input. -/
def computeCmdEnv (defEnv : List (GoStr × GoStr)) (inlineKVs : List GoStr) :
    List (GoStr × GoStr) :=
  MergeEnv defEnv (parseEnvKVs inlineKVs)

/-- Claim C10 counterexample: with definition env FOO=def and command prefix
FOO=inline, the executed environment carries FOO=inline — the inline
assignment wins, not the definition env as the claim states. -/
theorem cli_env_precedence_counterexample :
    lookupA (computeCmdEnv [(gs "FOO", gs "def")] [gs "FOO=inline"]) (gs "FOO") =
      some (gs "inline") ∧
    gs "inline" ≠ gs "def" := by
  refine ⟨by rfl, by decide⟩

theorem lookupA_insertA {α : Type} (m : List (GoStr × α)) (k k' : GoStr) (v : α) :
    lookupA (insertA m k v) k' = if k = k' then some v else lookupA m k' := by
  induction m with
  | nil => simp [insertA, lookupA]
  | cons kv rest ih =>
      obtain ⟨k0, v0⟩ := kv
      by_cases h0 : k0 = k
      · subst h0
        simp only [insertA, if_pos rfl, lookupA]
        by_cases h1 : k0 = k'
        · simp [h1]
        · simp [h1]
      · simp only [insertA, if_neg h0, lookupA, ih]
        by_cases h1 : k0 = k'
        · subst h1
          have h2 : ¬ (k = k0) := fun hk => h0 hk.symm
          simp [h2]
        · simp [h1]

theorem lookupA_foldl_insert {α : Type} (l : List (GoStr × α)) :
    ∀ (m0 : List (GoStr × α)) (k : GoStr),
      lookupA (l.foldl (fun m kv => insertA m kv.1 kv.2) m0) k =
        match lookupA (l.foldl (fun m kv => insertA m kv.1 kv.2) []) k with
        | some v => some v
        | none => lookupA m0 k := by
  induction l with
  | nil => intro m0 k; simp [lookupA]
  | cons kv rest ih =>
      intro m0 k
      simp only [List.foldl_cons]
      rw [ih (insertA m0 kv.1 kv.2) k, ih (insertA [] kv.1 kv.2) k]
      cases lookupA (rest.foldl (fun m kv => insertA m kv.1 kv.2) []) k with
      | some v => rfl
      | none =>
          simp only [lookupA_insertA]
          by_cases hk : kv.1 = k
          · rw [if_pos hk, if_pos hk]
          · rw [if_neg hk, if_neg hk]
            simp [lookupA]

/-- Claim C10 (amended): for every definition env and inline KEY=VAL prefix
list, a key bound by the inline assignments resolves to the inline value in
the executed environment, and a key not bound inline falls back to the
definition env value — inline assignments take precedence over the
definition env, the reverse of the claimed precedence. -/
theorem cli_env_precedence (defEnv : List (GoStr × GoStr)) (inlineKVs : List GoStr)
    (k v : GoStr) :
    (lookupA (toMapA (parseEnvKVs inlineKVs)) k = some v →
      lookupA (computeCmdEnv defEnv inlineKVs) k = some v) ∧
    (lookupA (toMapA (parseEnvKVs inlineKVs)) k = none →
      lookupA (computeCmdEnv defEnv inlineKVs) k = lookupA (toMapA defEnv) k) := by
  have h := lookupA_foldl_insert (parseEnvKVs inlineKVs)
    (defEnv.foldl (fun m kv => insertA m kv.1 kv.2) []) k
  constructor
  · intro hv
    unfold toMapA at hv
    rw [hv] at h
    exact h
  · intro hv
    unfold toMapA at hv
    rw [hv] at h
    exact h

/-- Claim C10 witness: the amended precedence applied at the concrete
counterexample environment, showing FOO resolves to the inline value. -/
theorem cli_env_precedence_witness :
    lookupA (computeCmdEnv [(gs "FOO", gs "def")] [gs "FOO=inline"]) (gs "FOO") =
      some (gs "inline") :=
  (cli_env_precedence [(gs "FOO", gs "def")] [gs "FOO=inline"] (gs "FOO")
    (gs "inline")).1 (by rfl)

-- --------------------------------------------------------------------- --
-- v4a patch text scanner and action parsing
-- --------------------------------------------------------------------- --

/-- State of the Go Parser struct. -/
structure PState where
  currentFiles : List (GoStr × GoStr)
  lines : List GoStr
  index : Nat
  actions : List (GoStr × PatchAction)
  fuzz : Nat
deriving Repr

/-- Go Parser.isDone: past the end, or the current (CR-normalised) line starts
with one of the given prefixes. -/
def pIsDone (st : PState) (prefixes : List GoStr) : Bool :=
  if st.lines.length ≤ st.index then true
  else if prefixes.isEmpty then false
  else prefixes.any (fun pre => goHasPre (norm (st.lines.getD st.index [])) pre)

/-- Go Parser.startsWith (the curLine error is discarded as in Go, an
out-of-range line reading as empty). -/
def pStartsWith (st : PState) (pre : GoStr) : Bool :=
  goHasPre (norm (st.lines.getD st.index [])) pre

/-- Go Parser.readStr: on a prefix match consume the line and return the raw
(unnormalised) suffix. -/
def pReadStr (st : PState) (pre : GoStr) : Except PErr (Option GoStr × PState) :=
  if pre = [] then .error .emptyReadStrPre
  else if st.lines.length ≤ st.index then .error .unexpectedEndOfInput
  else if goHasPre (norm (st.lines.getD st.index [])) pre then
    .ok (some ((st.lines.getD st.index []).drop pre.length), { st with index := st.index + 1 })
  else .ok (none, st)

/-- Go Parser.parseAddFile, accumulating the stripped lines. -/
def parseAddFileF : Nat → PState → List GoStr → Except PErr (PatchAction × PState)
  | 0, _, _ => .error .fuelExhausted
  | fuel + 1, st, acc =>
      if pIsDone st [gs "*** End Patch", gs "*** Update File:", gs "*** Delete File:",
                     gs "*** Add File:"] then
        .ok (⟨ActionType.add, some (List.intercalate (gs "\n") acc), [], []⟩, st)
      else
        let s := st.lines.getD st.index []
        if goHasPre s (gs "+") then
          parseAddFileF fuel { st with index := st.index + 1 } (acc ++ [s.drop 1])
        else .error (.invalidAddLine s)

def sliceContainsG (ss : List GoStr) (s : GoStr) : Bool := ss.any (fun v => v = s)

def sliceContainsTrim (ss : List GoStr) (s : GoStr) : Bool :=
  ss.any (fun v => trimSpace v = trimSpace s)

/-- First line index at or after `i` satisfying `pred` (the @@-definition
scans of parseUpdateFile). -/
def findLineFromF (pred : GoStr → Bool) (lines : List GoStr) : Nat → Nat → Option Nat
  | 0, _ => none
  | fuel + 1, i =>
      if i < lines.length then
        if pred (lines.getD i []) then some i
        else findLineFromF pred lines fuel (i + 1)
      else none

def findLineFrom (pred : GoStr → Bool) (lines : List GoStr) (i : Nat) : Option Nat :=
  findLineFromF pred lines (lines.length + 1 - i) i

inductive PMode
  | keep | madd | mdel
deriving DecidableEq, Repr

/-- Line prefixes that end a hunk section in peekNextSection. -/
def peekStop (s : GoStr) : Bool :=
  goHasPre s (gs "@@") || goHasPre s (gs "*** End Patch") ||
  goHasPre s (gs "*** Update File:") || goHasPre s (gs "*** Delete File:") ||
  goHasPre s (gs "*** Add File:") || goHasPre s (gs "*** End of File")

structure PeekOut where
  old : List GoStr
  chunks : List Chunk
  endIdx : Nat
  eof : Bool
deriving Repr

/-- Pending ins/del lines become a chunk at origIndex len(old)-len(delLines);
every deleted line is also in old, so the Nat subtraction never clamps. -/
def flushChunk (old delL insL : List GoStr) (chunks : List Chunk) : List Chunk :=
  if insL.length > 0 || delL.length > 0 then
    chunks ++ [⟨old.length - delL.length, delL, insL⟩]
  else chunks

/-- Loop exit of Go peekNextSection: flush the pending chunk, consume a
CR-normalised end-of-file sentinel, reject an empty section. -/
def peekFinish (lines : List GoStr) (origIndex index : Nat)
    (old delL insL : List GoStr) (chunks : List Chunk) : Except PErr PeekOut :=
  let chunks2 := flushChunk old delL insL chunks
  if index < lines.length ∧ norm (lines.getD index []) = gs "*** End of File" then
    .ok ⟨old, chunks2, index + 1, true⟩
  else if index = origIndex then .error .nothingInSection
  else .ok ⟨old, chunks2, index, false⟩

/-- Go peekNextSection's scan loop. -/
def peekNextSectionF (lines : List GoStr) (origIndex : Nat) :
    Nat → Nat → List GoStr → List GoStr → List GoStr → List Chunk → PMode →
    Except PErr PeekOut
  | 0, _, _, _, _, _, _ => .error .fuelExhausted
  | fuel + 1, index, old, delL, insL, chunks, mode =>
      if lines.length ≤ index then peekFinish lines origIndex index old delL insL chunks
      else
        let raw := lines.getD index []
        let s := norm raw
        if peekStop s then peekFinish lines origIndex index old delL insL chunks
        else if s = gs "***" then peekFinish lines origIndex index old delL insL chunks
        else if goHasPre s (gs "***") then .error (.invalidHunkLine raw)
        else
          let line := if raw = [] then [' '] else raw
          match line.headD ' ' with
          | '+' =>
              let rest := line.drop 1
              peekNextSectionF lines origIndex fuel (index + 1) old delL (insL ++ [rest])
                chunks PMode.madd
          | '-' =>
              let rest := line.drop 1
              peekNextSectionF lines origIndex fuel (index + 1) (old ++ [rest])
                (delL ++ [rest]) insL chunks PMode.mdel
          | ' ' =>
              let rest := line.drop 1
              if mode ≠ PMode.keep then
                peekNextSectionF lines origIndex fuel (index + 1)
                  (old ++ [rest]) [] [] (flushChunk old delL insL chunks) PMode.keep
              else
                peekNextSectionF lines origIndex fuel (index + 1) (old ++ [rest]) delL insL
                  chunks PMode.keep
          | _ => .error (.invalidHunkLine raw)

def peekNextSection (lines : List GoStr) (index : Nat) : Except PErr PeekOut :=
  peekNextSectionF lines index (lines.length + 1 - index) index [] [] [] [] PMode.keep

/-- The bare-@@ section header probe of parseUpdateFile: when the @@-with-
definition read did not fire, consume a lone @@ line as the section string. -/
def updStep2 (defOpt : Option GoStr) (st1 : PState) : Except PErr (GoStr × PState) :=
  match defOpt with
  | some _ => .ok ([], st1)
  | none =>
      if st1.lines.length ≤ st1.index then .error .unexpectedEndOfInput
      else if norm (st1.lines.getD st1.index []) = gs "@@" then
        .ok (st1.lines.getD st1.index [], { st1 with index := st1.index + 1 })
      else .ok ([], st1)

/-- Go Parser.parseUpdateFile's hunk loop.  `fileLines` is the split current
file text, `index` the file-line search position, `action` the accumulator. -/
def parseUpdateFileF (fileLines : List GoStr) :
    Nat → PState → Nat → PatchAction → Except PErr (PatchAction × PState)
  | 0, _, _, _ => .error .fuelExhausted
  | fuel + 1, st, index, action =>
      if pIsDone st [gs "*** End Patch", gs "*** Update File:", gs "*** Delete File:",
                     gs "*** Add File:", gs "*** End of File"] then
        .ok (action, st)
      else
        match pReadStr st (gs "@@ ") with
        | .error e => .error e
        | .ok (defOpt, st1) =>
          match updStep2 defOpt st1 with
          | .error e => .error e
          | .ok (sectionStr, st2) =>
            let defStr := defOpt.getD []
            if defStr = [] ∧ sectionStr = [] ∧ index ≠ 0 then
              .error (.invalidUpdateLine (st2.lines.getD st2.index []))
            else
              let pass1 : Nat × Bool :=
                if trimSpace defStr ≠ [] ∧ ¬ sliceContainsG (fileLines.take index) defStr then
                  match findLineFrom (fun l => l = defStr) fileLines index with
                  | some i => (i + 1, true)
                  | none => (index, false)
                else (index, false)
              let pass2 : Nat × Bool × Nat :=
                if trimSpace defStr ≠ [] ∧ pass1.2 = false ∧
                   ¬ sliceContainsTrim (fileLines.take index) defStr then
                  match findLineFrom (fun l => trimSpace l = trimSpace defStr) fileLines index with
                  | some i => (i + 1, true, 1)
                  | none => (pass1.1, false, 0)
                else (pass1.1, pass1.2, 0)
              let index1 := pass2.1
              match peekNextSection st2.lines st2.index with
              | .error e => .error e
              | .ok peek =>
                  match findContext fileLines peek.old index1 peek.eof with
                  | none => .error (.invalidContext peek.eof index1)
                  | some (newIndex, fuzz) =>
                      let action2 : PatchAction :=
                        { action with chunks := action.chunks ++
                            peek.chunks.map (fun c => ⟨c.origIndex + newIndex, c.delLines, c.insLines⟩) }
                      let st3 : PState :=
                        { st2 with fuzz := st2.fuzz + pass2.2.2 + fuzz, index := peek.endIdx }
                      parseUpdateFileF fileLines fuel st3 (newIndex + peek.old.length) action2

/-- Go Parser.parse: the action loop over the patch lines. -/
def parsePatchF : Nat → PState → Except PErr PState
  | 0, _ => .error .fuelExhausted
  | fuel + 1, st =>
      if pIsDone st [gs "*** End Patch"] then
        if pStartsWith st (gs "*** End Patch") then .ok { st with index := st.index + 1 }
        else .error .missingEndPatch
      else
        match pReadStr st (gs "*** Update File: ") with
        | .error e => .error e
        | .ok (some path, st1) =>
            if (lookupA st1.actions path).isSome then .error (.duplicateAction path)
            else
              match pReadStr st1 (gs "*** Move to: ") with
              | .error e => .error e
              | .ok (moveOpt, st2) =>
                  match lookupA st2.currentFiles path with
                  | none => .error (.missingFile path)
                  | some text =>
                      match parseUpdateFileF (splitOnNewline text) (st2.lines.length + 1)
                              st2 0 ⟨ActionType.update, none, [], []⟩ with
                      | .error e => .error e
                      | .ok (action, st3) =>
                          parsePatchF fuel
                            { st3 with actions := st3.actions ++
                                [(path, { action with movePath := moveOpt.getD [] })] }
        | .ok (none, st1) =>
            match pReadStr st1 (gs "*** Delete File: ") with
            | .error e => .error e
            | .ok (some path, st2) =>
                if (lookupA st2.actions path).isSome then .error (.duplicateAction path)
                else if (lookupA st2.currentFiles path).isNone then .error (.missingFile path)
                else
                  parsePatchF fuel
                    { st2 with actions := st2.actions ++
                        [(path, ⟨ActionType.delete, none, [], []⟩)] }
            | .ok (none, st2) =>
                match pReadStr st2 (gs "*** Add File: ") with
                | .error e => .error e
                | .ok (some path, st3) =>
                    if (lookupA st3.actions path).isSome then .error (.duplicateAction path)
                    else if (lookupA st3.currentFiles path).isSome then
                      .error (.fileExists path)
                    else
                      match parseAddFileF (st3.lines.length + 1) st3 [] with
                      | .error e => .error e
                      | .ok (action, st4) =>
                          parsePatchF fuel
                            { st4 with actions := st4.actions ++ [(path, action)] }
                | .ok (none, st3) =>
                    .error (.unknownLine (st3.lines.getD st3.index []))

/-- Go textToPatch: check the sentinels and run the parse loop from line 1. -/
def textToPatch (text : GoStr) (orig : List (GoStr × GoStr)) :
    Except PErr (List (GoStr × PatchAction) × Nat) :=
  let lines := splitLinesLikePython text
  if lines.length < 2 then .error .missingSentinels
  else if ¬ goHasPre (norm (lines.getD 0 [])) (gs "*** Begin Patch") then
    .error .missingSentinels
  else if norm (lines.getLast?.getD []) ≠ gs "*** End Patch" then .error .missingSentinels
  else
    match parsePatchF (lines.length + 1) ⟨orig, lines, 1, [], 0⟩ with
    | .error e => .error e
    | .ok st => .ok (st.actions, st.fuzz)

/-- Go identifyFilesNeeded: raw-prefix scan for update paths, then delete
paths. -/
def identifyFilesNeeded (text : GoStr) : List GoStr :=
  let lines := splitLinesLikePython text
  ((lines.filter (fun l => goHasPre l (gs "*** Update File: "))).map
      (fun l => l.drop (gs "*** Update File: ").length)) ++
  ((lines.filter (fun l => goHasPre l (gs "*** Delete File: "))).map
      (fun l => l.drop (gs "*** Delete File: ").length))

def identifyFilesAdded (text : GoStr) : List GoStr :=
  let lines := splitLinesLikePython text
  (lines.filter (fun l => goHasPre l (gs "*** Add File: "))).map
    (fun l => l.drop (gs "*** Add File: ").length)

-- --------------------------------------------------------------------- --
-- Code container (code/container) and commit application
-- --------------------------------------------------------------------- --

structure CodeContainer where
  files : List (GoStr × GoStr)
  deleted : List GoStr
deriving DecidableEq, Repr

/-- Go CodeContainer.Open: error for a deletion-marked path, otherwise the
map's zero value, so an absent path opens as the empty string. -/
def ccOpen (c : CodeContainer) (p : GoStr) : Except PErr GoStr :=
  if p ∈ c.deleted then .error (.openDeleted p)
  else .ok ((lookupA c.files p).getD [])

/-- Go CodeContainer.Write: set the content and clear any deletion mark. -/
def ccWrite (c : CodeContainer) (p content : GoStr) : CodeContainer :=
  ⟨insertA c.files p content, c.deleted.filter (fun q => q ≠ p)⟩

/-- Go CodeContainer.Remove: evict the content and mark the path deleted. -/
def ccRemove (c : CodeContainer) (p : GoStr) : CodeContainer :=
  ⟨c.files.filter (fun kv => kv.1 ≠ p),
   if p ∈ c.deleted then c.deleted else c.deleted ++ [p]⟩

/-- The mapping view of a container (Go CodeContainer.Files): deleted paths
are absent. -/
def ccView (c : CodeContainer) (p : GoStr) : Option GoStr :=
  if p ∈ c.deleted then none else lookupA c.files p

/-- Go loadFiles over the container's Open. -/
def loadFilesAux (c : CodeContainer) :
    List GoStr → List (GoStr × GoStr) → Except PErr (List (GoStr × GoStr))
  | [], m => .ok m
  | p :: rest, m =>
      match ccOpen c p with
      | .error e => .error e
      | .ok txt => loadFilesAux c rest (insertA m p txt)

def loadFiles (paths : List GoStr) (c : CodeContainer) :
    Except PErr (List (GoStr × GoStr)) :=
  loadFilesAux c paths []

/-- Go patchToCommit, iterating actions in insertion order. -/
def patchToCommitAux (orig : List (GoStr × GoStr)) :
    List (GoStr × PatchAction) → List (GoStr × FileChange) →
    Except PErr (List (GoStr × FileChange))
  | [], acc => .ok acc
  | (path, action) :: rest, acc =>
      match action.type with
      | .delete =>
          patchToCommitAux orig rest
            (acc ++ [(path, ⟨ActionType.delete, some ((lookupA orig path).getD []), none, []⟩)])
      | .add =>
          match action.newFile with
          | none => .error .addWithoutContent
          | some nf =>
              patchToCommitAux orig rest (acc ++ [(path, ⟨ActionType.add, none, some nf, []⟩)])
      | .update =>
          match getUpdatedFile ((lookupA orig path).getD []) action path with
          | .error e => .error e
          | .ok nc =>
              patchToCommitAux orig rest
                (acc ++ [(path, ⟨ActionType.update, some ((lookupA orig path).getD []),
                                 some nc, action.movePath⟩)])

def patchToCommit (actions : List (GoStr × PatchAction)) (orig : List (GoStr × GoStr)) :
    Except PErr (List (GoStr × FileChange)) :=
  patchToCommitAux orig actions []

/-- Go applyCommit over the container's Write/Remove, iterating changes in
insertion order. -/
def applyCommit : List (GoStr × FileChange) → CodeContainer → Except PErr CodeContainer
  | [], c => .ok c
  | (path, change) :: rest, c =>
      match change.type with
      | .delete => applyCommit rest (ccRemove c path)
      | .add =>
          match change.newContent with
          | none => .error (.addChangeNoContent path)
          | some nc => applyCommit rest (ccWrite c path nc)
      | .update =>
          match change.newContent with
          | none => .error (.updateChangeNoContent path)
          | some nc =>
              let target := if change.movePath ≠ [] then change.movePath else path
              if change.movePath ≠ [] then
                applyCommit rest (ccRemove (ccWrite c target nc) path)
              else applyCommit rest (ccWrite c target nc)

/-- Go processPatch instantiated with a CodeContainer as the FileSystem (the
fmt.Errorf wrappers around parse/commit/apply errors only decorate the
message, so the model returns the inner error values). -/
def processPatch (text : GoStr) (c : CodeContainer) :
    Except PErr (GoStr × CodeContainer) :=
  if ¬ goHasPre text (gs "*** Begin Patch") then .error .patchMustBegin
  else
    match loadFiles (identifyFilesNeeded text) c with
    | .error e => .error e
    | .ok orig =>
        match textToPatch text orig with
        | .error e => .error e
        | .ok (actions, _) =>
            match patchToCommit actions orig with
            | .error e => .error e
            | .ok commit =>
                match applyCommit commit c with
                | .error e => .error e
                | .ok c2 => .ok (gs "Done!", c2)

/-- Go ApplyPatch: trim surrounding whitespace, append a newline, process. -/
def goApplyPatch (c : CodeContainer) (patchText : GoStr) :
    Except PErr (GoStr × CodeContainer) :=
  processPatch (trimSpace patchText ++ gs "\n") c

-- --------------------------------------------------------------------- --
-- Container view lemmas
-- --------------------------------------------------------------------- --

theorem lookupA_filter_ne {α : Type} (m : List (GoStr × α)) (p q : GoStr) (h : q ≠ p) :
    lookupA (m.filter (fun kv => kv.1 ≠ p)) q = lookupA m q := by
  induction m with
  | nil => rfl
  | cons kv rest ih =>
      obtain ⟨k0, v0⟩ := kv
      by_cases h0 : k0 = p
      · subst h0
        rw [List.filter_cons_of_neg (by simp)]
        rw [ih, lookupA, if_neg (fun he => h he.symm)]
      · rw [List.filter_cons_of_pos (by simp [h0])]
        simp only [lookupA, ih]

theorem lookupA_filter_self {α : Type} (m : List (GoStr × α)) (p : GoStr) :
    lookupA (m.filter (fun kv => kv.1 ≠ p)) p = none := by
  induction m with
  | nil => rfl
  | cons kv rest ih =>
      obtain ⟨k0, v0⟩ := kv
      by_cases h0 : k0 = p
      · subst h0
        rw [List.filter_cons_of_neg (by simp)]
        exact ih
      · rw [List.filter_cons_of_pos (by simp [h0])]
        simp only [lookupA, if_neg h0, ih]

theorem mem_filter_ne {l : List GoStr} {p q : GoStr} :
    q ∈ l.filter (fun x => x ≠ p) ↔ q ∈ l ∧ q ≠ p := by
  simp [List.mem_filter]

theorem ccView_write_self (c : CodeContainer) (p v : GoStr) :
    ccView (ccWrite c p v) p = some v := by
  unfold ccView ccWrite
  rw [if_neg (by simp [mem_filter_ne])]
  simp [lookupA_insertA]

theorem ccView_write_other (c : CodeContainer) (p v q : GoStr) (h : q ≠ p) :
    ccView (ccWrite c p v) q = ccView c q := by
  unfold ccView ccWrite
  simp only [mem_filter_ne]
  by_cases hd : q ∈ c.deleted
  · rw [if_pos ⟨hd, h⟩, if_pos hd]
  · rw [if_neg (fun hx => hd hx.1), if_neg hd,
        lookupA_insertA, if_neg (fun he => h he.symm)]

theorem ccView_remove_self (c : CodeContainer) (p : GoStr) :
    ccView (ccRemove c p) p = none := by
  unfold ccView ccRemove
  by_cases hd : p ∈ c.deleted
  · rw [if_pos (by simp [hd])]
  · rw [if_pos (by simp [hd])]

theorem ccView_remove_other (c : CodeContainer) (p q : GoStr) (h : q ≠ p) :
    ccView (ccRemove c p) q = ccView c q := by
  unfold ccView ccRemove
  by_cases hd : q ∈ c.deleted
  · rw [if_pos (by split <;> simp [hd]), if_pos hd]
  · rw [if_neg ?hq, if_neg hd, lookupA_filter_ne _ _ _ h]
    case hq =>
      split
      · exact hd
      · simp only [List.mem_append, List.mem_singleton]
        rintro (hx | rfl)
        · exact hd hx
        · exact h rfl

-- --------------------------------------------------------------------- --
-- applyCommit postconditions
-- --------------------------------------------------------------------- --

/-- The container paths a change writes or removes. -/
def changeTouched (p : GoStr) (ch : FileChange) : List GoStr :=
  match ch.type with
  | .delete => [p]
  | .add => [p]
  | .update => if ch.movePath ≠ [] then [ch.movePath, p] else [p]

def commitTouched (changes : List (GoStr × FileChange)) : List GoStr :=
  changes.flatMap (fun pc => changeTouched pc.1 pc.2)

theorem applyCommit_frame :
    ∀ (changes : List (GoStr × FileChange)) (c c' : CodeContainer) (q : GoStr),
      applyCommit changes c = .ok c' → q ∉ commitTouched changes →
      ccView c' q = ccView c q := by
  intro changes
  induction changes with
  | nil =>
      intro c c' q h _
      cases h
      rfl
  | cons pc rest ih =>
      intro c c' q h hq
      obtain ⟨p, ch⟩ := pc
      simp only [commitTouched, List.flatMap_cons, List.mem_append] at hq
      push_neg at hq
      obtain ⟨hq1, hq2⟩ := hq
      have hq2' : q ∉ commitTouched rest := hq2
      obtain ⟨ty, oldC, newC, mv⟩ := ch
      cases ty with
      | delete =>
          simp only [applyCommit] at h
          rw [ih _ _ _ h hq2', ccView_remove_other]
          intro he
          exact hq1 (by simp [changeTouched, he])
      | add =>
          cases newC with
          | none => simp only [applyCommit] at h; cases h
          | some nc =>
              simp only [applyCommit] at h
              rw [ih _ _ _ h hq2', ccView_write_other]
              intro he
              exact hq1 (by simp [changeTouched, he])
      | update =>
          cases newC with
          | none => simp only [applyCommit] at h; cases h
          | some nc =>
              simp only [applyCommit] at h
              by_cases hmv : mv ≠ []
              · rw [if_pos hmv] at h
                have hqm : q ≠ mv := by
                  intro he
                  exact hq1 (by simp [changeTouched, if_pos hmv, he])
                have hqp : q ≠ p := by
                  intro he
                  exact hq1 (by simp [changeTouched, if_pos hmv, he])
                rw [ih _ _ _ h hq2', ccView_remove_other _ _ _ hqp, if_pos hmv,
                    ccView_write_other _ _ _ _ hqm]
              · rw [if_neg hmv] at h
                have hqp : q ≠ p := by
                  intro he
                  exact hq1 (by simp [changeTouched, hmv, he])
                rw [ih _ _ _ h hq2', if_neg hmv, ccView_write_other _ _ _ _ hqp]

/-- Per-change postcondition of the claim: delete leaves the path absent, add
leaves the new content, update leaves the new content at the move target
(removing the source) or in place. -/
def changePost (view : GoStr → Option GoStr) (p : GoStr) (ch : FileChange) : Prop :=
  match ch.type with
  | .delete => view p = none
  | .add => ∃ nc, ch.newContent = some nc ∧ view p = some nc
  | .update => ∃ nc, ch.newContent = some nc ∧
      (if ch.movePath ≠ [] then view ch.movePath = some nc ∧ view p = none
       else view p = some nc)

theorem applyCommit_post :
    ∀ (changes : List (GoStr × FileChange)) (c c' : CodeContainer),
      applyCommit changes c = .ok c' →
      List.Pairwise
        (fun a b => ∀ q, q ∈ changeTouched a.1 a.2 → q ∉ changeTouched b.1 b.2) changes →
      (∀ pc ∈ changes,
         pc.2.type = ActionType.update → pc.2.movePath ≠ [] → pc.2.movePath ≠ pc.1) →
      ∀ pc ∈ changes, changePost (ccView c') pc.1 pc.2 := by
  intro changes
  induction changes with
  | nil =>
      intro c c' _ _ _ pc hpc
      simp at hpc
  | cons hd rest ih =>
      intro c c' h hpair hmv pc hpc
      obtain ⟨p, ch⟩ := hd
      rw [List.pairwise_cons] at hpair
      obtain ⟨hhead, htail⟩ := hpair
      have hnt : ∀ q, q ∈ changeTouched p ch → q ∉ commitTouched rest := by
        intro q hqt hqm
        simp only [commitTouched, List.mem_flatMap] at hqm
        obtain ⟨b, hb, hqb⟩ := hqm
        exact hhead b hb q hqt hqb
      have hmvtail : ∀ pc ∈ rest,
          pc.2.type = ActionType.update → pc.2.movePath ≠ [] → pc.2.movePath ≠ pc.1 :=
        fun pc2 hm => hmv pc2 (List.mem_cons_of_mem _ hm)
      obtain ⟨ty, oldC, newC, mv⟩ := ch
      cases ty with
      | delete =>
          simp only [applyCommit] at h
          rcases List.mem_cons.mp hpc with rfl | hmem
          · simp only [changePost]
            rw [applyCommit_frame rest _ _ _ h (hnt p (by simp [changeTouched]))]
            exact ccView_remove_self c p
          · exact ih _ _ h htail hmvtail pc hmem
      | add =>
          cases newC with
          | none => simp only [applyCommit] at h; cases h
          | some nc =>
              simp only [applyCommit] at h
              rcases List.mem_cons.mp hpc with rfl | hmem
              · refine ⟨nc, rfl, ?_⟩
                rw [applyCommit_frame rest _ _ _ h (hnt p (by simp [changeTouched]))]
                exact ccView_write_self c p nc
              · exact ih _ _ h htail hmvtail pc hmem
      | update =>
          cases newC with
          | none => simp only [applyCommit] at h; cases h
          | some nc =>
              simp only [applyCommit] at h
              by_cases hm : mv ≠ []
              · rw [if_pos hm] at h
                rcases List.mem_cons.mp hpc with rfl | hmem
                · have hmp : mv ≠ p := by
                    have := hmv (p, ⟨ActionType.update, oldC, some nc, mv⟩)
                      (List.mem_cons_self _ _) rfl hm
                    exact this
                  refine ⟨nc, rfl, ?_⟩
                  rw [if_pos hm]
                  constructor
                  · rw [applyCommit_frame rest _ _ _ h
                        (hnt mv (by simp [changeTouched, if_pos hm]))]
                    rw [ccView_remove_other _ _ _ hmp, if_pos hm, ccView_write_self]
                  · rw [applyCommit_frame rest _ _ _ h
                        (hnt p (by simp [changeTouched, if_pos hm]))]
                    exact ccView_remove_self _ p
                · exact ih _ _ h htail hmvtail pc hmem
              · rw [if_neg hm] at h
                rcases List.mem_cons.mp hpc with rfl | hmem
                · refine ⟨nc, rfl, ?_⟩
                  rw [if_neg hm]
                  rw [applyCommit_frame rest _ _ _ h
                      (hnt p (by simp [changeTouched, hm]))]
                  rw [if_neg hm]
                  exact ccView_write_self c p nc
                · exact ih _ _ h htail hmvtail pc hmem

-- --------------------------------------------------------------------- --
-- The claim's chunk fold and its agreement with getUpdatedFile
-- --------------------------------------------------------------------- --

/-- The fold described by claim C1 (spec section 4.2): copy original lines up
to the chunk's origIndex, append its insLines, skip len(delLines) original
lines, and after the last chunk append the remainder. -/
def specFoldAux (origLines : List GoStr) : List Chunk → Nat → List GoStr
  | [], i => origLines.drop i
  | ch :: rest, i =>
      (origLines.drop i).take (ch.origIndex - i) ++ ch.insLines ++
      specFoldAux origLines rest (ch.origIndex + ch.delLines.length)

theorem getUpdatedFileAux_spec {path : GoStr} {origLines : List GoStr} :
    ∀ {chunks : List Chunk} {acc : Nat} {res : List GoStr},
      getUpdatedFileAux path origLines chunks acc = .ok res →
      res = specFoldAux origLines chunks acc := by
  intro chunks
  induction chunks with
  | nil =>
      intro acc res h
      simp only [getUpdatedFileAux] at h
      cases h
      rfl
  | cons ch rest ih =>
      intro acc res h
      simp only [getUpdatedFileAux] at h
      split at h
      · cases h
      · split at h
        · cases h
        · split at h
          · cases h
          · rename_i tail htail
            cases h
            rw [ih htail]
            simp [specFoldAux]

theorem getUpdatedFile_spec {text : GoStr} {a : PatchAction} {path : GoStr} {nc : GoStr}
    (h : getUpdatedFile text a path = .ok nc) :
    nc = List.intercalate (gs "\n") (specFoldAux (splitOnNewline text) a.chunks 0) := by
  unfold getUpdatedFile at h
  split at h
  · cases h
  · split at h
    · cases h
    · rename_i dest hdest
      cases h
      rw [getUpdatedFileAux_spec hdest]

-- --------------------------------------------------------------------- --
-- patchToCommit relates actions to changes pointwise
-- --------------------------------------------------------------------- --

def actionChangeRel (orig : List (GoStr × GoStr))
    (pa : GoStr × PatchAction) (pc : GoStr × FileChange) : Prop :=
  pc.1 = pa.1 ∧ pc.2.type = pa.2.type ∧
  (pa.2.type = ActionType.add → pc.2.newContent = pa.2.newFile ∧ pc.2.movePath = []) ∧
  (pa.2.type = ActionType.update →
    pc.2.movePath = pa.2.movePath ∧
    ∃ nc, getUpdatedFile ((lookupA orig pa.1).getD []) pa.2 pa.1 = .ok nc ∧
          pc.2.newContent = some nc)

theorem patchToCommitAux_rel {orig : List (GoStr × GoStr)} :
    ∀ (actions : List (GoStr × PatchAction)) (acc changes : List (GoStr × FileChange)),
      patchToCommitAux orig actions acc = .ok changes →
      ∃ tail, changes = acc ++ tail ∧ List.Forall₂ (actionChangeRel orig) actions tail := by
  intro actions
  induction actions with
  | nil =>
      intro acc changes h
      simp only [patchToCommitAux] at h
      cases h
      exact ⟨[], by simp, List.Forall₂.nil⟩
  | cons pa rest ih =>
      intro acc changes h
      obtain ⟨p, a⟩ := pa
      simp only [patchToCommitAux] at h
      cases hty : a.type with
      | delete =>
          rw [hty] at h
          obtain ⟨tail, htl, hrel⟩ := ih _ _ h
          refine ⟨(p, ⟨ActionType.delete, some ((lookupA orig p).getD []), none, []⟩) :: tail,
            by simp [htl], List.Forall₂.cons ?_ hrel⟩
          exact ⟨rfl, by simp [hty], by simp [hty], by simp [hty]⟩
      | add =>
          rw [hty] at h
          cases hnf : a.newFile with
          | none => rw [hnf] at h; cases h
          | some nf =>
              rw [hnf] at h
              obtain ⟨tail, htl, hrel⟩ := ih _ _ h
              refine ⟨(p, ⟨ActionType.add, none, some nf, []⟩) :: tail,
                by simp [htl], List.Forall₂.cons ?_ hrel⟩
              exact ⟨rfl, by simp [hty], by simp [hnf], by simp [hty]⟩
      | update =>
          rw [hty] at h
          cases hup : getUpdatedFile ((lookupA orig p).getD []) a p with
          | error e => rw [hup] at h; cases h
          | ok nc =>
              rw [hup] at h
              obtain ⟨tail, htl, hrel⟩ := ih _ _ h
              refine ⟨(p, ⟨ActionType.update, some ((lookupA orig p).getD []),
                            some nc, a.movePath⟩) :: tail,
                by simp [htl], List.Forall₂.cons ?_ hrel⟩
              exact ⟨rfl, by simp [hty], by simp [hty], fun _ => ⟨rfl, nc, hup, rfl⟩⟩

theorem forall₂_mem_left {α β : Type} {R : α → β → Prop} :
    ∀ {l1 : List α} {l2 : List β}, List.Forall₂ R l1 l2 →
      ∀ x ∈ l1, ∃ y ∈ l2, R x y := by
  intro l1
  induction l1 with
  | nil => intro l2 _ x hx; simp at hx
  | cons a rest ih =>
      intro l2 h x hx
      cases h with
      | cons hab htl =>
          rcases List.mem_cons.mp hx with rfl | hmem
          · exact ⟨_, List.mem_cons_self _ _, hab⟩
          · obtain ⟨y, hy, hr⟩ := ih htl x hmem
            exact ⟨y, List.mem_cons_of_mem _ hy, hr⟩

-- --------------------------------------------------------------------- --
-- loadFiles lookups come from the container's Open
-- --------------------------------------------------------------------- --

theorem loadFilesAux_lookup {c : CodeContainer} :
    ∀ (paths : List GoStr) (m orig : List (GoStr × GoStr)),
      loadFilesAux c paths m = .ok orig →
      ∀ p v, lookupA orig p = some v → lookupA m p = some v ∨ ccOpen c p = .ok v := by
  intro paths
  induction paths with
  | nil =>
      intro m orig h p v hv
      cases h
      exact Or.inl hv
  | cons p0 rest ih =>
      intro m orig h p v hv
      simp only [loadFilesAux] at h
      cases hop : ccOpen c p0 with
      | error e => rw [hop] at h; cases h
      | ok txt =>
          rw [hop] at h
          rcases ih _ _ h p v hv with hm | hopen
          · rw [lookupA_insertA] at hm
            by_cases he : p0 = p
            · subst he
              rw [if_pos rfl] at hm
              cases hm
              exact Or.inr hop
            · rw [if_neg he] at hm
              exact Or.inl hm
          · exact Or.inr hopen

theorem ccOpen_of_view {c : CodeContainer} {p v : GoStr} (h : ccView c p = some v) :
    ccOpen c p = .ok v := by
  unfold ccView at h
  unfold ccOpen
  split at h
  · cases h
  · rename_i hd
    rw [if_neg hd, h]
    rfl

-- --------------------------------------------------------------------- --
-- Parser state preservation and action invariants
-- --------------------------------------------------------------------- --

theorem pReadStr_fields {st : PState} {pre : GoStr} {o : Option GoStr} {st' : PState}
    (h : pReadStr st pre = .ok (o, st')) :
    st'.currentFiles = st.currentFiles ∧ st'.actions = st.actions ∧ st'.lines = st.lines := by
  unfold pReadStr at h
  split at h
  · cases h
  · split at h
    · cases h
    · split at h
      · cases h
        exact ⟨rfl, rfl, rfl⟩
      · cases h
        exact ⟨rfl, rfl, rfl⟩

theorem updStep2_fields {defOpt : Option GoStr} {st1 : PState} {sec : GoStr} {st2 : PState}
    (h : updStep2 defOpt st1 = .ok (sec, st2)) :
    st2.currentFiles = st1.currentFiles ∧ st2.actions = st1.actions ∧
    st2.lines = st1.lines := by
  unfold updStep2 at h
  split at h
  · cases h
    exact ⟨rfl, rfl, rfl⟩
  · split at h
    · cases h
    · split at h
      · cases h
        exact ⟨rfl, rfl, rfl⟩
      · cases h
        exact ⟨rfl, rfl, rfl⟩

theorem parseAddFileF_fields :
    ∀ {fuel : Nat} {st : PState} {acc : List GoStr} {a : PatchAction} {st' : PState},
      parseAddFileF fuel st acc = .ok (a, st') →
      st'.currentFiles = st.currentFiles ∧ st'.actions = st.actions ∧
      st'.lines = st.lines ∧ a.type = ActionType.add := by
  intro fuel
  induction fuel with
  | zero => intro st acc a st' h; simp [parseAddFileF] at h
  | succ n ih =>
      intro st acc a st' h
      simp only [parseAddFileF] at h
      split at h
      · cases h
        exact ⟨rfl, rfl, rfl, rfl⟩
      · split at h
        · obtain ⟨h1, h2, h3, h4⟩ := ih h
          exact ⟨h1, h2, h3, h4⟩
        · cases h

theorem parseUpdateFileF_fields {fileLines : List GoStr} :
    ∀ {fuel : Nat} {st : PState} {index : Nat} {action a : PatchAction} {st' : PState},
      parseUpdateFileF fileLines fuel st index action = .ok (a, st') →
      st'.currentFiles = st.currentFiles ∧ st'.actions = st.actions ∧
      st'.lines = st.lines ∧ a.type = action.type := by
  intro fuel
  induction fuel with
  | zero => intro st idx action a st' h; simp [parseUpdateFileF] at h
  | succ n ih =>
      intro st idx action a st' h
      simp only [parseUpdateFileF] at h
      split at h
      · cases h
        exact ⟨rfl, rfl, rfl, rfl⟩
      · split at h
        · cases h
        · rename_i defOpt st1 hrd
          obtain ⟨hc1, ha1, hl1⟩ := pReadStr_fields hrd
          split at h
          · cases h
          · rename_i sec st2 hs2
            obtain ⟨hc2, ha2, hl2⟩ := updStep2_fields hs2
            split at h
            · cases h
            · split at h
              · cases h
              · rename_i peek hpeek
                split at h
                · cases h
                · rename_i ni fz hfc
                  obtain ⟨h1, h2, h3, h4⟩ := ih h
                  refine ⟨?_, ?_, ?_, h4⟩
                  · rw [h1]; exact hc2.trans hc1
                  · rw [h2]; exact ha2.trans ha1
                  · rw [h3]; exact hl2.trans hl1

/-- The per-action guarantee established by the parse loop's checks against
CurrentFiles: an add path is absent from the loaded mapping, a delete or
update path is present in it. -/
def actOK (cf : List (GoStr × GoStr)) (pa : GoStr × PatchAction) : Prop :=
  (pa.2.type = ActionType.add → lookupA cf pa.1 = none) ∧
  ((pa.2.type = ActionType.delete ∨ pa.2.type = ActionType.update) →
    (lookupA cf pa.1).isSome)

theorem parsePatchF_inv :
    ∀ {fuel : Nat} {st st' : PState}, parsePatchF fuel st = .ok st' →
      st'.currentFiles = st.currentFiles ∧
      ∀ pa ∈ st'.actions, pa ∈ st.actions ∨ actOK st.currentFiles pa := by
  intro fuel
  induction fuel with
  | zero => intro st st' h; simp [parsePatchF] at h
  | succ n ih =>
      intro st st' h
      simp only [parsePatchF] at h
      split at h
      · split at h
        · cases h
          exact ⟨rfl, fun pa hpa => Or.inl hpa⟩
        · cases h
      · split at h
        · cases h
        · rename_i path st1 hupd
          obtain ⟨hc1, ha1, _⟩ := pReadStr_fields hupd
          split at h
          · cases h
          · split at h
            · cases h
            · rename_i moveOpt st2 hmove
              obtain ⟨hc2, ha2, _⟩ := pReadStr_fields hmove
              split at h
              · cases h
              · rename_i text htext
                split at h
                · cases h
                · rename_i action st3 hpuf
                  obtain ⟨hc3, ha3, _, hty3⟩ := parseUpdateFileF_fields hpuf
                  obtain ⟨hcf, hacts⟩ := ih h
                  constructor
                  · rw [hcf]
                    simp only
                    rw [hc3, hc2, hc1]
                  · intro pa hpa
                    rcases hacts pa hpa with hmem | hok
                    · simp only at hmem
                      rw [ha3, ha2, ha1] at hmem
                      rcases List.mem_append.mp hmem with hm | hm
                      · exact Or.inl hm
                      · right
                        rcases List.mem_singleton.mp hm with rfl
                        constructor
                        · intro hadd
                          simp only at hadd
                          rw [hty3] at hadd
                          cases hadd
                        · intro _
                          have : lookupA st.currentFiles path = some text := by
                            rw [← hc1, ← hc2]
                            exact htext
                          simp only [this, Option.isSome_some]
                    · right
                      simp only at hok
                      rw [hc3, hc2, hc1] at hok
                      exact hok
        · rename_i st1 hupd0
          obtain ⟨hc1, ha1, _⟩ := pReadStr_fields hupd0
          split at h
          · cases h
          · rename_i path st2 hdel
            obtain ⟨hc2, ha2, _⟩ := pReadStr_fields hdel
            split at h
            · cases h
            · split at h
              · cases h
              · rename_i hnone
                obtain ⟨hcf, hacts⟩ := ih h
                constructor
                · rw [hcf]
                  simp only
                  rw [hc2, hc1]
                · intro pa hpa
                  rcases hacts pa hpa with hmem | hok
                  · simp only at hmem
                    rw [ha2, ha1] at hmem
                    rcases List.mem_append.mp hmem with hm | hm
                    · exact Or.inl hm
                    · right
                      rcases List.mem_singleton.mp hm with rfl
                      constructor
                      · intro hadd
                        simp at hadd
                      · intro _
                        rw [← hc1, ← hc2]
                        cases hlk : lookupA st2.currentFiles path with
                        | none => exact absurd (by rw [hlk]; rfl) hnone
                        | some v => rfl
                  · right
                    simp only at hok
                    rw [hc2, hc1] at hok
                    exact hok
          · rename_i st2 hdel0
            obtain ⟨hc2, ha2, _⟩ := pReadStr_fields hdel0
            split at h
            · cases h
            · rename_i path st3 haddr
              obtain ⟨hc3, ha3, _⟩ := pReadStr_fields haddr
              split at h
              · cases h
              · split at h
                · cases h
                · rename_i hnex
                  split at h
                  · cases h
                  · rename_i action st4 haf
                    obtain ⟨hc4, ha4, _, hty4⟩ := parseAddFileF_fields haf
                    obtain ⟨hcf, hacts⟩ := ih h
                    constructor
                    · rw [hcf]
                      simp only
                      rw [hc4, hc3, hc2, hc1]
                    · intro pa hpa
                      rcases hacts pa hpa with hmem | hok
                      · simp only at hmem
                        rw [ha4, ha3, ha2, ha1] at hmem
                        rcases List.mem_append.mp hmem with hm | hm
                        · exact Or.inl hm
                        · right
                          rcases List.mem_singleton.mp hm with rfl
                          constructor
                          · intro _
                            rw [← hc1, ← hc2, ← hc3]
                            cases hlk : lookupA st3.currentFiles path with
                            | none => rfl
                            | some v => exact absurd (by rw [hlk]; rfl) hnex
                          · intro hdl
                            simp only at hdl
                            rw [hty4] at hdl
                            rcases hdl with h5 | h5
                            · cases h5
                            · cases h5
                      · right
                        simp only at hok
                        rw [hc4, hc3, hc2, hc1] at hok
                        exact hok
            · cases h

theorem textToPatch_inv {text : GoStr} {orig : List (GoStr × GoStr)}
    {actions : List (GoStr × PatchAction)} {fz : Nat}
    (h : textToPatch text orig = .ok (actions, fz)) :
    ∀ pa ∈ actions, actOK orig pa := by
  simp only [textToPatch] at h
  split at h
  · cases h
  · split at h
    · cases h
    · split at h
      · cases h
      · split at h
        · cases h
        · rename_i st hst
          cases h
          intro pa hpa
          obtain ⟨hcf, hacts⟩ := parsePatchF_inv hst
          rcases hacts pa hpa with hmem | hok
          · simp at hmem
          · exact hok

/-- Claim C1 (amended): for every container F and patch text that parses
successfully against the loaded mapping, converts to a commit, and applies
successfully, PROVIDED the commit's write/remove targets are pairwise
disjoint across changes, each move destination differs from its source, and
each delete/update path is present in F, the resulting mapping F2 satisfies:
for every Add action with path p, p was absent from the loaded mapping and
F2[p] is the action's new content; for every Delete action with path p, p was
present in F and is absent from F2; for every Update action with path p, the
fold of its chunks over F[p] (per section 4.2) lands at F2[p], or at
F2[movePath] with p removed when a move destination is set. -/
theorem patch_application_postcondition
    (c : CodeContainer) (text : GoStr) (orig : List (GoStr × GoStr))
    (actions : List (GoStr × PatchAction)) (fz : Nat)
    (commit : List (GoStr × FileChange)) (c2 : CodeContainer)
    (hload : loadFiles (identifyFilesNeeded text) c = .ok orig)
    (hparse : textToPatch text orig = .ok (actions, fz))
    (hcommit : patchToCommit actions orig = .ok commit)
    (happly : applyCommit commit c = .ok c2)
    (hdisj : List.Pairwise
        (fun a b => ∀ q, q ∈ changeTouched a.1 a.2 → q ∉ changeTouched b.1 b.2) commit)
    (hmvne : ∀ pc ∈ commit,
        pc.2.type = ActionType.update → pc.2.movePath ≠ [] → pc.2.movePath ≠ pc.1)
    (hpresent : ∀ pa ∈ actions,
        pa.2.type = ActionType.delete ∨ pa.2.type = ActionType.update →
        ∃ v, ccView c pa.1 = some v) :
    ∀ pa ∈ actions,
      (pa.2.type = ActionType.add →
         lookupA orig pa.1 = none ∧
         ∃ nc, pa.2.newFile = some nc ∧ ccView c2 pa.1 = some nc) ∧
      (pa.2.type = ActionType.delete →
         (∃ v, ccView c pa.1 = some v) ∧ ccView c2 pa.1 = none) ∧
      (pa.2.type = ActionType.update →
         ∃ v, ccView c pa.1 = some v ∧
           (if pa.2.movePath ≠ [] then
              ccView c2 pa.2.movePath =
                some (List.intercalate (gs "\n")
                  (specFoldAux (splitOnNewline v) pa.2.chunks 0)) ∧
              ccView c2 pa.1 = none
            else
              ccView c2 pa.1 =
                some (List.intercalate (gs "\n")
                  (specFoldAux (splitOnNewline v) pa.2.chunks 0)))) := by
  intro pa hpa
  obtain ⟨p, a⟩ := pa
  obtain ⟨tail, htl, hrel⟩ := patchToCommitAux_rel actions [] commit hcommit
  rw [List.nil_append] at htl
  subst htl
  obtain ⟨pc, hpcmem, hr⟩ := forall₂_mem_left hrel (p, a) hpa
  obtain ⟨hp1, hty, haddrel, hupdrel⟩ := hr
  have hpost := applyCommit_post commit c c2 happly hdisj hmvne pc hpcmem
  have hinv := textToPatch_inv hparse (p, a) hpa
  refine ⟨?_, ?_, ?_⟩
  · intro htya
    refine ⟨hinv.1 htya, ?_⟩
    have hty2 : pc.2.type = ActionType.add := by
      rw [hty]
      exact htya
    simp only [changePost, hty2] at hpost
    obtain ⟨nc, hnc, hview⟩ := hpost
    obtain ⟨hnf, _⟩ := haddrel htya
    refine ⟨nc, ?_, ?_⟩
    · rw [← hnf]
      exact hnc
    · rw [← hp1]
      exact hview
  · intro htyd
    refine ⟨hpresent (p, a) hpa (Or.inl htyd), ?_⟩
    have hty2 : pc.2.type = ActionType.delete := by
      rw [hty]
      exact htyd
    simp only [changePost, hty2] at hpost
    rw [← hp1]
    exact hpost
  · intro htyu
    obtain ⟨v, hview⟩ := hpresent (p, a) hpa (Or.inr htyu)
    refine ⟨v, hview, ?_⟩
    have hsome := hinv.2 (Or.inr htyu)
    obtain ⟨t, ht⟩ := Option.isSome_iff_exists.mp hsome
    have hopen : ccOpen c p = .ok t := by
      rcases loadFilesAux_lookup _ _ _ hload p t ht with hnil | hop
      · simp [lookupA] at hnil
      · exact hop
    have htv : t = v := by
      have h2 := ccOpen_of_view hview
      rw [hopen] at h2
      cases h2
      rfl
    subst htv
    obtain ⟨hmv, nc, hupd, hnc⟩ := hupdrel htyu
    rw [ht] at hupd
    simp only [Option.getD_some] at hupd
    have hspec := getUpdatedFile_spec hupd
    have hty2 : pc.2.type = ActionType.update := by
      rw [hty]
      exact htyu
    simp only [changePost, hty2] at hpost
    obtain ⟨nc2, hnc2, hif⟩ := hpost
    have hncnc : nc2 = nc := by
      rw [hnc] at hnc2
      cases hnc2
      rfl
    subst hncnc
    rw [hmv, hp1] at hif
    rw [← hspec]
    exact hif

-- --------------------------------------------------------------------- --
-- C1 and C5 concrete inputs
-- --------------------------------------------------------------------- --

def cexC1Cont : CodeContainer := ⟨[(gs "a", gs "x\ny"), (gs "b", gs "z")], []⟩

def cexC1Text : GoStr :=
  gs "*** Begin Patch\n*** Update File: a\n*** Move to: b\n@@\n x\n-y\n+y2\n*** Delete File: b\n*** End Patch\n"

def cexC1Orig : List (GoStr × GoStr) := [(gs "a", gs "x\ny"), (gs "b", gs "z")]

def cexC1Update : PatchAction :=
  ⟨ActionType.update, none, [⟨1, [gs "y"], [gs "y2"]⟩], gs "b"⟩

/-- Claim C1 counterexample: the patch updating file a with move destination
b while deleting file b parses successfully against the mapping {a, b}, yet
after application b is absent although the claim requires F2[movePath] =
F2[b] to hold the folded content x,y2 (and the other commit order would
instead violate the Delete clause, so no map iteration order satisfies the
claim). -/
theorem patch_postcondition_counterexample :
    loadFiles (identifyFilesNeeded cexC1Text) cexC1Cont = .ok cexC1Orig ∧
    textToPatch cexC1Text cexC1Orig =
      .ok ([(gs "a", cexC1Update), (gs "b", ⟨ActionType.delete, none, [], []⟩)], 0) ∧
    processPatch cexC1Text cexC1Cont = .ok (gs "Done!", ⟨[], [gs "a", gs "b"]⟩) ∧
    ccView ⟨[], [gs "a", gs "b"]⟩ (gs "b") = none ∧
    List.intercalate (gs "\n")
      (specFoldAux (splitOnNewline (gs "x\ny")) cexC1Update.chunks 0) = gs "x\ny2" := by
  refine ⟨by rfl, by rfl, by rfl, by rfl, by rfl⟩

def witC1Cont : CodeContainer := ⟨[(gs "foo.txt", gs "foo\nbar\nhaha")], []⟩

def witC1Text : GoStr :=
  gs "*** Begin Patch\n*** Update File: foo.txt\n@@ foo\n foo\n-bar\n+bar updated\n haha\n*** End of File\n*** End Patch\n"

def witC1Orig : List (GoStr × GoStr) := [(gs "foo.txt", gs "foo\nbar\nhaha")]

def witC1Action : PatchAction :=
  ⟨ActionType.update, none, [⟨1, [gs "bar"], [gs "bar updated"]⟩], []⟩

def witC1Change : FileChange :=
  ⟨ActionType.update, some (gs "foo\nbar\nhaha"), some (gs "foo\nbar updated\nhaha"), []⟩

def witC1Out : CodeContainer := ⟨[(gs "foo.txt", gs "foo\nbar updated\nhaha")], []⟩

/-- Claim C1 witness: the amended postcondition applied to the update patch
of the test suite, showing the updated file holds the folded content. -/
theorem patch_application_postcondition_witness :
    ccView witC1Out (gs "foo.txt") = some (gs "foo\nbar updated\nhaha") := by
  have h := patch_application_postcondition witC1Cont witC1Text witC1Orig
    [(gs "foo.txt", witC1Action)] 0 [(gs "foo.txt", witC1Change)] witC1Out
    (by rfl) (by rfl) (by rfl) (by rfl)
    (by simp)
    (by
      intro pc hpc _ hmv
      rcases List.mem_singleton.mp hpc with rfl
      exact absurd rfl hmv)
    (by
      intro pa hpa _
      rcases List.mem_singleton.mp hpa with rfl
      exact ⟨gs "foo\nbar\nhaha", by decide⟩)
  obtain ⟨-, -, h3⟩ := h (gs "foo.txt", witC1Action) (List.mem_singleton.mpr rfl)
  obtain ⟨v, hv, hfold⟩ := h3 rfl
  have hv2 : v = gs "foo\nbar\nhaha" := by
    have hcc : ccView witC1Cont (gs "foo.txt") = some (gs "foo\nbar\nhaha") := by decide
    rw [hcc] at hv
    cases hv
    rfl
  subst hv2
  rw [if_neg (by decide)] at hfold
  rw [hfold]
  rfl

def cexC5Cont : CodeContainer := ⟨[(gs "a", gs "old")], []⟩

def cexC5Text : GoStr := gs "*** Begin Patch\n*** Add File: a\n+new\n*** End Patch\n"

/-- Claim C5 counterexample: the container holds file a with content old,
the patch adds file a, and applying it does not fail — it returns Done! and
silently overwrites a with the new content, because identifyFilesNeeded
collects only update/delete paths, so the parser's add-exists check never
sees the container's files. -/
theorem add_existing_counterexample :
    ccView cexC5Cont (gs "a") = some (gs "old") ∧
    processPatch cexC5Text cexC5Cont = .ok (gs "Done!", ⟨[(gs "a", gs "new")], []⟩) ∧
    ccView ⟨[(gs "a", gs "new")], []⟩ (gs "a") = some (gs "new") := by
  refine ⟨by decide, by rfl, by decide⟩

/-- Claim C5 (amended): the absence requirement for an Add action is checked
against the mapping the parser was given — for the ApplyPatch pipeline, the
mapping loaded from the patch's update/delete paths only: every Add action
of a successfully parsed patch has a path absent from that mapping, while an
Add of a path present in the container but not otherwise referenced by the
patch is not rejected and overwrites the file. -/
theorem add_requires_absence (text : GoStr) (orig : List (GoStr × GoStr))
    (actions : List (GoStr × PatchAction)) (fz : Nat)
    (h : textToPatch text orig = .ok (actions, fz)) :
    ∀ pa ∈ actions, pa.2.type = ActionType.add → lookupA orig pa.1 = none := by
  intro pa hpa hty
  exact (textToPatch_inv h pa hpa).1 hty

/-- Claim C5 witness: the amended absence guarantee applied to the concrete
add-only patch, whose loaded mapping is empty. -/
theorem add_requires_absence_witness :
    textToPatch cexC5Text [] =
      .ok ([(gs "a", ⟨ActionType.add, some (gs "new"), [], []⟩)], 0) ∧
    lookupA ([] : List (GoStr × GoStr)) (gs "a") = none := by
  refine ⟨by rfl, ?_⟩
  exact add_requires_absence cexC5Text []
    [(gs "a", ⟨ActionType.add, some (gs "new"), [], []⟩)] 0 (by rfl)
    (gs "a", ⟨ActionType.add, some (gs "new"), [], []⟩)
    (List.mem_singleton.mpr rfl) rfl

-- --------------------------------------------------------------------- --
-- JSON stream decoder (json_stream_decoder) over byte lists
-- --------------------------------------------------------------------- --

abbrev Bytes := List Nat

/-- String literal to ASCII byte list (for concrete decoder inputs). -/
def bs (s : String) : Bytes := s.data.map Char.toNat

/-- Decoder error values, one per error site (fuelOut is the embedding's
fuel artifact, unreachable for the fuel the wrappers pass). -/
inductive DErr
  | eof
  | unexpectedEOF
  | expectedByte (want got : Nat)
  | expectedComma
  | unsupported (b : Nat)
  | invalidEscape (b : Nat)
  | badHex
  | fuelOut
deriving DecidableEq, Repr

/-- isSpace of the decoder: space, LF, CR, TAB. -/
def jIsSpace (b : Nat) : Bool := b = 32 || b = 10 || b = 13 || b = 9

/-- skipSpaces: drop leading spaces; peeking at exhausted input is io.EOF. -/
def skipSpaces : Bytes → Except DErr Bytes
  | [] => .error .eof
  | b :: r => if jIsSpace b then skipSpaces r else .ok (b :: r)

def hexVal (b : Nat) : Option Nat :=
  if 48 ≤ b ∧ b ≤ 57 then some (b - 48)
  else if 97 ≤ b ∧ b ≤ 102 then some (b - 87)
  else if 65 ≤ b ∧ b ≤ 70 then some (b - 55)
  else none

/-- strconv.ParseUint(hex, 16, 16) on exactly four bytes. -/
def parseHex4 (h : Bytes) : Option Nat :=
  match h with
  | [a, b, c, d] =>
      match hexVal a, hexVal b, hexVal c, hexVal d with
      | some x, some y, some z, some w => some (x * 4096 + y * 256 + z * 16 + w)
      | _, _, _, _ => none
  | _ => none

def hexDig (n : Nat) : Nat := if n < 10 then n + 48 else n + 87

/-- Four lowercase hex digits of n < 0x10000 (used only to build inputs). -/
def toHex4 (n : Nat) : Bytes :=
  [hexDig (n / 4096 % 16), hexDig (n / 256 % 16), hexDig (n / 16 % 16), hexDig (n % 16)]

/-- UTF-8 encoding of a code point (as Go string(rune) for valid scalars). -/
def utf8Enc (n : Nat) : Bytes :=
  if n < 0x80 then [n]
  else if n < 0x800 then [0xC0 + n / 64, 0x80 + n % 64]
  else if n < 0x10000 then [0xE0 + n / 4096, 0x80 + n / 64 % 64, 0x80 + n % 64]
  else [0xF0 + n / 262144, 0x80 + n / 4096 % 64, 0x80 + n / 64 % 64, 0x80 + n % 64]

def isSurrogateCU (n : Nat) : Bool := decide (0xD800 ≤ n ∧ n < 0xE000)

/-- Go string(rune r): UTF-8 of r, or of U+FFFD when r is a surrogate code
unit (invalid scalar). -/
def goStringOfRune (n : Nat) : Bytes :=
  if isSurrogateCU n then utf8Enc 0xFFFD else utf8Enc n

/-- readEscape: returns (decoded bytes, rest, error).  On error Go returns
the partial text shown here; readStringValue appends it before bailing. -/
def readEscape : Bytes → Bytes × Bytes × Option DErr
  | [] => ([92], [], some .eof)
  | b :: r =>
      if b = 34 ∨ b = 92 ∨ b = 47 then ([b], r, none)
      else if b = 98 then ([8], r, none)
      else if b = 102 then ([12], r, none)
      else if b = 110 then ([10], r, none)
      else if b = 114 then ([13], r, none)
      else if b = 116 then ([9], r, none)
      else if b = 117 then
        if r.length < 4 then
          ([92, 117] ++ r, [], some (if r.isEmpty then DErr.eof else DErr.unexpectedEOF))
        else
          match parseHex4 (r.take 4) with
          | none => ([], r.drop 4, some .badHex)
          | some v =>
              if isSurrogateCU v then
                match r.drop 4 with
                | 92 :: 117 :: r2 =>
                    if r2.length < 4 then
                      (goStringOfRune v ++ [92, 117] ++ r2, [],
                       some (if r2.isEmpty then DErr.eof else DErr.unexpectedEOF))
                    else
                      match parseHex4 (r2.take 4) with
                      | none => ([], r2.drop 4, some .badHex)
                      | some v2 =>
                          if 0xD800 ≤ v ∧ v < 0xDC00 ∧ 0xDC00 ≤ v2 ∧ v2 < 0xE000 then
                            (utf8Enc (0x10000 + (v - 0xD800) * 0x400 + (v2 - 0xDC00)),
                             r2.drop 4, none)
                          else (goStringOfRune v ++ goStringOfRune v2, r2.drop 4, none)
                | rest2 => (goStringOfRune v, rest2, none)
              else (goStringOfRune v, r.drop 4, none)
      else ([], r, some (.invalidEscape b))

/-- readString (keys): accumulate decoded bytes until an unescaped quote; the
caller discards the partial result on error, so errors carry no text. -/
def readStringF : Nat → Bytes → Bytes → Except DErr (Bytes × Bytes)
  | 0, _, _ => .error .fuelOut
  | _ + 1, [], _ => .error .eof
  | fuel + 1, b :: r, acc =>
      if b = 34 then .ok (acc, r)
      else if b = 92 then
        match readEscape r with
        | (_, _, some e) => .error e
        | (dec, rest, none) => readStringF fuel rest (acc ++ dec)
      else readStringF fuel r (acc ++ [b])

/-- ensureTrailingNewline. -/
def ensureNL (s : Bytes) : Bytes := if s.getLast? = some 10 then s else s ++ [10]

/-- readStringValue: returns (chunks so far, emitted flag, rest, error),
emitting the decoded value (with trailing newline) at the closing quote, and
the decoded prefix on EOF or escape error. -/
def readStringValueF :
    Nat → Bytes → Bytes → Bool → List Bytes → List Bytes × Bool × Bytes × Option DErr
  | 0, inp, _, emitted, chunks => (chunks, emitted, inp, some .fuelOut)
  | _ + 1, [], sb, emitted, chunks =>
      if sb.isEmpty then (chunks, emitted, [], some .unexpectedEOF)
      else (chunks ++ [ensureNL sb], true, [], some .unexpectedEOF)
  | fuel + 1, b :: r, sb, emitted, chunks =>
      if b = 34 then (chunks ++ [ensureNL sb], true, r, none)
      else if b = 92 then
        match readEscape r with
        | (dec, rest, some e) =>
            if (sb ++ dec).isEmpty then (chunks, emitted, rest, some e)
            else (chunks ++ [ensureNL (sb ++ dec)], true, rest, some e)
        | (dec, rest, none) => readStringValueF fuel rest (sb ++ dec) emitted chunks
      else readStringValueF fuel r (sb ++ [b]) emitted chunks

/-- readLiteralValue: accumulate until a comma, closing brace or whitespace
(unreading the delimiter byte); EOF with content emits and succeeds. -/
def readLiteralValueF :
    Nat → Bytes → Bytes → Bool → List Bytes → List Bytes × Bool × Bytes × Option DErr
  | 0, inp, _, emitted, chunks => (chunks, emitted, inp, some .fuelOut)
  | _ + 1, [], sb, emitted, chunks =>
      if sb.isEmpty then (chunks, emitted, [], some .unexpectedEOF)
      else (chunks ++ [ensureNL sb], true, [], none)
  | fuel + 1, b :: r, sb, emitted, chunks =>
      if b = 44 ∨ b = 125 then
        if sb.isEmpty then (chunks, emitted, b :: r, some .unexpectedEOF)
        else (chunks ++ [ensureNL sb], true, b :: r, none)
      else if jIsSpace b then
        match skipSpaces r with
        | .error _ =>
            if sb.isEmpty then (chunks, emitted, [], some .unexpectedEOF)
            else (chunks ++ [ensureNL sb], true, [], none)
        | .ok rest2 =>
            if sb.isEmpty then (chunks, emitted, rest2, some .unexpectedEOF)
            else (chunks ++ [ensureNL sb], true, rest2, none)
      else readLiteralValueF fuel r (sb ++ [b]) emitted chunks

/-- readValue: strings are decoded and streamed, nested objects and arrays
are rejected, anything else is read as a literal. -/
def readValueF (inp : Bytes) (emitted : Bool) (chunks : List Bytes) :
    List Bytes × Bool × Bytes × Option DErr :=
  match inp with
  | [] => (chunks, emitted, [], some .eof)
  | b :: r =>
      if b = 34 then readStringValueF (r.length + 1) r [] emitted chunks
      else if b = 123 ∨ b = 91 then (chunks, emitted, b :: r, some (.unsupported b))
      else readLiteralValueF (r.length + 2) (b :: r) [] emitted chunks

/-- The Stream loop over object fields.  Errors are wrapped at each return
site with the emitted flag at that moment, as Go PartialJSONError does; the
Bool in the error pair is that partial flag. -/
def streamLoopF :
    Nat → Bool → Bytes → Bool → List Bytes → List Bytes × Option (Bool × DErr)
  | 0, _, _, emitted, chunks => (chunks, some (emitted, .fuelOut))
  | fuel + 1, first, inp, emitted, chunks =>
      match skipSpaces inp with
      | .error e => (chunks, some (emitted, e))
      | .ok inp1 =>
          match inp1 with
          | [] => (chunks, some (emitted, .unexpectedEOF))
          | next :: rest1 =>
              if next = 125 then (chunks, none)
              else
                match
                  (if first then Except.ok (next :: rest1)
                   else if next ≠ 44 then Except.error DErr.expectedComma
                   else skipSpaces rest1 : Except DErr Bytes) with
                | .error e => (chunks, some (emitted, e))
                | .ok inp2 =>
                    match inp2 with
                    | [] => (chunks, some (emitted, .eof))
                    | q :: r2 =>
                        if q ≠ 34 then (chunks, some (emitted, .expectedByte 34 q))
                        else
                          match readStringF (r2.length + 1) r2 [] with
                          | .error e => (chunks, some (emitted, e))
                          | .ok (key, r3) =>
                              let chunks1 := chunks ++ [key ++ [58, 10]]
                              match skipSpaces r3 with
                              | .error e => (chunks1, some (true, e))
                              | .ok r4 =>
                                  match r4 with
                                  | [] => (chunks1, some (true, .eof))
                                  | col :: r5 =>
                                      if col ≠ 58 then
                                        (chunks1, some (true, .expectedByte 58 col))
                                      else
                                        match skipSpaces r5 with
                                        | .error e => (chunks1, some (true, e))
                                        | .ok r6 =>
                                            match readValueF r6 true chunks1 with
                                            | (chunks2, emitted2, _r7, some e) =>
                                                (chunks2, some (emitted2, e))
                                            | (chunks2, emitted2, r7, none) =>
                                                streamLoopF fuel false r7 emitted2 chunks2

/-- JSONStreamDecoder.Stream: skip spaces, expect the opening brace, run the
field loop.  The result is the emitted chunks and, on failure, the error
with its partial flag. -/
def jsonStream (inp : Bytes) : List Bytes × Option (Bool × DErr) :=
  match skipSpaces inp with
  | .error e => ([], some (false, e))
  | .ok inp1 =>
      match inp1 with
      | [] => ([], some (false, .eof))
      | b :: r =>
          if b ≠ 123 then ([], some (false, .expectedByte 123 b))
          else streamLoopF (r.length + 1) true r false []

-- --------------------------------------------------------------------- --
-- Escape round-trip building blocks
-- --------------------------------------------------------------------- --

theorem hexVal_hexDig (n : Nat) (h : n < 16) : hexVal (hexDig n) = some n := by
  interval_cases n <;> rfl

theorem parseHex4_toHex4 (n : Nat) (h : n < 65536) : parseHex4 (toHex4 n) = some n := by
  simp only [toHex4, parseHex4]
  rw [hexVal_hexDig _ (by omega), hexVal_hexDig _ (by omega),
      hexVal_hexDig _ (by omega), hexVal_hexDig _ (by omega)]
  show some (n / 4096 % 16 * 4096 + n / 256 % 16 * 256 + n / 16 % 16 * 16 + n % 16) = some n
  exact congrArg some (by omega)

theorem toHex4_length (n : Nat) : (toHex4 n).length = 4 := rfl

/-- One decoded element of a JSON string literal: a plain byte, a short
escape, a non-surrogate unicode escape, or a surrogate pair. -/
inductive StrElem
  | raw (b : Nat)
  | esc (b : Nat)
  | uni (n : Nat)
  | pairU (hi lo : Nat)
deriving DecidableEq, Repr

def escMap (b : Nat) : Nat :=
  if b = 98 then 8 else if b = 102 then 12 else if b = 110 then 10
  else if b = 114 then 13 else if b = 116 then 9 else b

def elemRender : StrElem → Bytes
  | .raw b => [b]
  | .esc b => [92, b]
  | .uni n => 92 :: 117 :: toHex4 n
  | .pairU hi lo => 92 :: 117 :: (toHex4 hi ++ 92 :: 117 :: toHex4 lo)

def elemDenote : StrElem → Bytes
  | .raw b => [b]
  | .esc b => [escMap b]
  | .uni n => utf8Enc n
  | .pairU hi lo => utf8Enc (0x10000 + (hi - 0xD800) * 0x400 + (lo - 0xDC00))

def elemWF : StrElem → Prop
  | .raw b => b ≠ 34 ∧ b ≠ 92
  | .esc b => b = 34 ∨ b = 92 ∨ b = 47 ∨ b = 98 ∨ b = 102 ∨ b = 110 ∨ b = 114 ∨ b = 116
  | .uni n => n < 65536 ∧ ¬(0xD800 ≤ n ∧ n < 0xE000)
  | .pairU hi lo => 0xD800 ≤ hi ∧ hi < 0xDC00 ∧ 0xDC00 ≤ lo ∧ lo < 0xE000

def strRender (es : List StrElem) : Bytes := es.flatMap elemRender

def strDenote (es : List StrElem) : Bytes := es.flatMap elemDenote

theorem readEscape_esc {b : Nat} (h : elemWF (.esc b)) (rest : Bytes) :
    readEscape (b :: rest) = ([escMap b], rest, none) := by
  simp only [elemWF] at h
  rcases h with rfl | rfl | rfl | rfl | rfl | rfl | rfl | rfl <;> rfl

theorem take4_toHex4_append (n : Nat) (rest : Bytes) :
    List.take 4 (toHex4 n ++ rest) = toHex4 n := by
  simp [toHex4]

theorem drop4_toHex4_append (n : Nat) (rest : Bytes) :
    List.drop 4 (toHex4 n ++ rest) = rest := by
  simp [toHex4]

theorem not_length_toHex4_append_lt (n : Nat) (rest : Bytes) :
    ¬ ((toHex4 n ++ rest).length < 4) := by
  simp [toHex4]

theorem readEscape_uni {n : Nat} (h : elemWF (.uni n)) (rest : Bytes) :
    readEscape (117 :: (toHex4 n ++ rest)) = (utf8Enc n, rest, none) := by
  obtain ⟨hlt, hsur⟩ := h
  simp only [readEscape, take4_toHex4_append, drop4_toHex4_append,
             parseHex4_toHex4 n hlt, isSurrogateCU, goStringOfRune]
  rw [if_neg (by decide), if_neg (by decide), if_neg (by decide), if_neg (by decide),
      if_neg (by decide), if_neg (by decide), if_pos (by decide),
      if_neg (not_length_toHex4_append_lt n rest)]
  rw [if_neg (by simpa [isSurrogateCU] using hsur),
      if_neg (by simpa using hsur)]

theorem readEscape_pairU {hi lo : Nat} (h : elemWF (.pairU hi lo)) (rest : Bytes) :
    readEscape (117 :: (toHex4 hi ++ (92 :: 117 :: (toHex4 lo ++ rest)))) =
      (utf8Enc (0x10000 + (hi - 0xD800) * 0x400 + (lo - 0xDC00)), rest, none) := by
  obtain ⟨h1, h2, h3, h4⟩ := h
  simp only [readEscape, take4_toHex4_append, drop4_toHex4_append,
             parseHex4_toHex4 hi (by omega)]
  rw [if_neg (by decide), if_neg (by decide), if_neg (by decide), if_neg (by decide),
      if_neg (by decide), if_neg (by decide), if_pos (by decide),
      if_neg (not_length_toHex4_append_lt hi _)]
  rw [if_pos (by simp [isSurrogateCU]; omega)]
  simp only [take4_toHex4_append, drop4_toHex4_append, parseHex4_toHex4 lo (by omega)]
  rw [if_neg (not_length_toHex4_append_lt lo rest)]
  rw [if_pos (by omega)]

theorem strRender_cons (e : StrElem) (es : List StrElem) :
    strRender (e :: es) = elemRender e ++ strRender es := by
  simp [strRender]

theorem strDenote_cons (e : StrElem) (es : List StrElem) :
    strDenote (e :: es) = elemDenote e ++ strDenote es := by
  simp [strDenote]

theorem readStringF_render :
    ∀ (es : List StrElem), (∀ e ∈ es, elemWF e) →
    ∀ (rest acc : Bytes) (fuel : Nat), (strRender es).length < fuel →
      readStringF fuel (strRender es ++ 34 :: rest) acc = .ok (acc ++ strDenote es, rest) := by
  intro es
  induction es with
  | nil =>
      intro _ rest acc fuel hf
      cases fuel with
      | zero => omega
      | succ f =>
          simp only [strRender, List.flatMap_nil, List.nil_append, readStringF,
                     if_pos rfl]
          simp [strDenote]
  | cons e es ih =>
      intro hwf rest acc fuel hf
      have hwfe : elemWF e := hwf e (List.mem_cons_self _ _)
      have hwfs : ∀ x ∈ es, elemWF x := fun x hx => hwf x (List.mem_cons_of_mem _ hx)
      rw [strRender_cons] at hf ⊢
      rw [List.length_append] at hf
      rw [strDenote_cons]
      cases fuel with
      | zero => omega
      | succ f =>
          have hf2 : (strRender es).length < f := by
            have : 1 ≤ (elemRender e).length := by
              cases e <;> simp [elemRender, toHex4]
            omega
          cases e with
          | raw b =>
              obtain ⟨hb1, hb2⟩ := hwfe
              simp only [elemRender, List.cons_append, List.nil_append, List.append_assoc]
              simp only [readStringF, if_neg hb1, if_neg hb2]
              rw [ih hwfs rest (acc ++ [b]) f (by omega)]
              simp [elemDenote]
          | esc b =>
              simp only [elemRender, List.cons_append, List.nil_append, List.append_assoc]
              simp only [readStringF]
              rw [if_neg (by decide : ¬ ((92:Nat) = 34)), if_pos trivial]
              rw [readEscape_esc hwfe]
              dsimp only
              rw [ih hwfs rest (acc ++ [escMap b]) f (by omega)]
              simp [elemDenote]
          | uni n =>
              simp only [elemRender, List.cons_append, List.nil_append, List.append_assoc]
              simp only [readStringF]
              rw [if_neg (by decide : ¬ ((92:Nat) = 34)), if_pos trivial]
              rw [readEscape_uni hwfe]
              dsimp only
              rw [ih hwfs rest (acc ++ utf8Enc n) f (by omega)]
              simp [elemDenote]
          | pairU hi lo =>
              simp only [elemRender, List.cons_append, List.nil_append, List.append_assoc]
              simp only [readStringF]
              rw [if_neg (by decide : ¬ ((92:Nat) = 34)), if_pos trivial]
              rw [readEscape_pairU hwfe]
              dsimp only
              rw [ih hwfs rest _ f (by omega)]
              simp [elemDenote]

theorem readStringValueF_render :
    ∀ (es : List StrElem), (∀ e ∈ es, elemWF e) →
    ∀ (rest sb : Bytes) (emitted : Bool) (chunks : List Bytes) (fuel : Nat),
      (strRender es).length < fuel →
      readStringValueF fuel (strRender es ++ 34 :: rest) sb emitted chunks =
        (chunks ++ [ensureNL (sb ++ strDenote es)], true, rest, none) := by
  intro es
  induction es with
  | nil =>
      intro _ rest sb emitted chunks fuel hf
      cases fuel with
      | zero => omega
      | succ f =>
          simp only [strRender, List.flatMap_nil, List.nil_append, readStringValueF,
                     if_pos rfl]
          simp [strDenote]
  | cons e es ih =>
      intro hwf rest sb emitted chunks fuel hf
      have hwfe : elemWF e := hwf e (List.mem_cons_self _ _)
      have hwfs : ∀ x ∈ es, elemWF x := fun x hx => hwf x (List.mem_cons_of_mem _ hx)
      rw [strRender_cons] at hf ⊢
      rw [List.length_append] at hf
      rw [strDenote_cons]
      cases fuel with
      | zero => omega
      | succ f =>
          have hf2 : (strRender es).length < f := by
            have : 1 ≤ (elemRender e).length := by
              cases e <;> simp [elemRender, toHex4]
            omega
          cases e with
          | raw b =>
              obtain ⟨hb1, hb2⟩ := hwfe
              simp only [elemRender, List.cons_append, List.nil_append, List.append_assoc]
              simp only [readStringValueF, if_neg hb1, if_neg hb2]
              rw [ih hwfs rest (sb ++ [b]) emitted chunks f (by omega)]
              simp [elemDenote]
          | esc b =>
              simp only [elemRender, List.cons_append, List.nil_append, List.append_assoc]
              simp only [readStringValueF]
              rw [if_neg (by decide : ¬ ((92:Nat) = 34)), if_pos trivial]
              rw [readEscape_esc hwfe]
              dsimp only
              rw [ih hwfs rest (sb ++ [escMap b]) emitted chunks f (by omega)]
              simp [elemDenote]
          | uni n =>
              simp only [elemRender, List.cons_append, List.nil_append, List.append_assoc]
              simp only [readStringValueF]
              rw [if_neg (by decide : ¬ ((92:Nat) = 34)), if_pos trivial]
              rw [readEscape_uni hwfe]
              dsimp only
              rw [ih hwfs rest (sb ++ utf8Enc n) emitted chunks f (by omega)]
              simp [elemDenote]
          | pairU hi lo =>
              simp only [elemRender, List.cons_append, List.nil_append, List.append_assoc]
              simp only [readStringValueF]
              rw [if_neg (by decide : ¬ ((92:Nat) = 34)), if_pos trivial]
              rw [readEscape_pairU hwfe]
              dsimp only
              rw [ih hwfs rest _ emitted chunks f (by omega)]
              simp [elemDenote]

theorem readStringValueF_truncated :
    ∀ (es : List StrElem), (∀ e ∈ es, elemWF e) →
    ∀ (sb : Bytes) (emitted : Bool) (chunks : List Bytes) (fuel : Nat),
      (strRender es).length < fuel →
      readStringValueF fuel (strRender es) sb emitted chunks =
        (if (sb ++ strDenote es).isEmpty then chunks
         else chunks ++ [ensureNL (sb ++ strDenote es)],
         if (sb ++ strDenote es).isEmpty then emitted else true,
         [], some .unexpectedEOF) := by
  intro es
  induction es with
  | nil =>
      intro _ sb emitted chunks fuel hf
      cases fuel with
      | zero => omega
      | succ f =>
          simp only [strRender, List.flatMap_nil, readStringValueF]
          by_cases hsb : sb = []
          · simp [hsb, strDenote]
          · simp [hsb, strDenote]
  | cons e es ih =>
      intro hwf sb emitted chunks fuel hf
      have hwfe : elemWF e := hwf e (List.mem_cons_self _ _)
      have hwfs : ∀ x ∈ es, elemWF x := fun x hx => hwf x (List.mem_cons_of_mem _ hx)
      rw [strRender_cons] at hf ⊢
      rw [List.length_append] at hf
      rw [strDenote_cons]
      cases fuel with
      | zero => omega
      | succ f =>
          have hf2 : (strRender es).length < f := by
            have : 1 ≤ (elemRender e).length := by
              cases e <;> simp [elemRender, toHex4]
            omega
          cases e with
          | raw b =>
              obtain ⟨hb1, hb2⟩ := hwfe
              simp only [elemRender, List.cons_append, List.nil_append, List.append_assoc]
              simp only [readStringValueF, if_neg hb1, if_neg hb2]
              rw [ih hwfs (sb ++ [b]) emitted chunks f (by omega)]
              simp [elemDenote]
          | esc b =>
              simp only [elemRender, List.cons_append, List.nil_append, List.append_assoc]
              simp only [readStringValueF]
              rw [if_neg (by decide : ¬ ((92:Nat) = 34)), if_pos trivial]
              rw [readEscape_esc hwfe]
              dsimp only
              rw [ih hwfs (sb ++ [escMap b]) emitted chunks f (by omega)]
              simp [elemDenote]
          | uni n =>
              simp only [elemRender, List.cons_append, List.nil_append, List.append_assoc]
              simp only [readStringValueF]
              rw [if_neg (by decide : ¬ ((92:Nat) = 34)), if_pos trivial]
              rw [readEscape_uni hwfe]
              dsimp only
              rw [ih hwfs (sb ++ utf8Enc n) emitted chunks f (by omega)]
              simp [elemDenote]
          | pairU hi lo =>
              simp only [elemRender, List.cons_append, List.nil_append, List.append_assoc]
              simp only [readStringValueF]
              rw [if_neg (by decide : ¬ ((92:Nat) = 34)), if_pos trivial]
              rw [readEscape_pairU hwfe]
              dsimp only
              rw [ih hwfs _ emitted chunks f (by omega)]
              simp [elemDenote]

-- --------------------------------------------------------------------- --
-- Rendering a JSON object of string literals and decoding it
-- --------------------------------------------------------------------- --

abbrev JField := List StrElem × List StrElem

def fieldWF (f : JField) : Prop := (∀ e ∈ f.1, elemWF e) ∧ (∀ e ∈ f.2, elemWF e)

/-- The serialized form "key":"value" of one field. -/
def renderField (f : JField) : Bytes :=
  34 :: (strRender f.1 ++ (34 :: 58 :: 34 :: (strRender f.2 ++ [34])))

/-- The serialized fields after the opening brace: the first field bare, the
rest comma-prefixed. -/
def fieldsTail : Bool → List JField → Bytes
  | _, [] => []
  | true, f :: fs => renderField f ++ fieldsTail false fs
  | false, f :: fs => 44 :: (renderField f ++ fieldsTail false fs)

/-- A JSON object of string literals. -/
def renderObj (fields : List JField) : Bytes :=
  123 :: (fieldsTail true fields ++ [125])

/-- The chunks the decoder must emit: per field the key header, then the
decoded value with a trailing newline unless it already ends in one. -/
def expectedChunks (fields : List JField) : List Bytes :=
  fields.flatMap (fun f => [strDenote f.1 ++ [58, 10], ensureNL (strDenote f.2)])

theorem skipSpaces_nonspace {b : Nat} (h : jIsSpace b = false) (r : Bytes) :
    skipSpaces (b :: r) = .ok (b :: r) := by
  simp [skipSpaces, h]

theorem streamLoopF_step (f : JField) (hwf : fieldWF f) (T : Bytes) (fuel : Nat)
    (emitted : Bool) (chunks : List Bytes) :
    streamLoopF (fuel + 1) true (renderField f ++ T) emitted chunks =
      streamLoopF fuel false T true
        (chunks ++ [strDenote f.1 ++ [58, 10], ensureNL (strDenote f.2)]) ∧
    streamLoopF (fuel + 1) false (44 :: (renderField f ++ T)) emitted chunks =
      streamLoopF fuel false T true
        (chunks ++ [strDenote f.1 ++ [58, 10], ensureNL (strDenote f.2)]) := by
  obtain ⟨hwk, hwv⟩ := hwf
  constructor
  · simp only [renderField, List.cons_append, List.append_assoc, List.nil_append]
    simp only [streamLoopF]
    rw [skipSpaces_nonspace (by decide)]
    try dsimp only
    try simp only [reduceIte]
    rw [readStringF_render f.1 hwk _ [] _ (by simp; omega)]
    try dsimp only
    rw [skipSpaces_nonspace (by decide)]
    try dsimp only
    try simp only [reduceIte]
    rw [skipSpaces_nonspace (by decide)]
    try dsimp only
    simp only [readValueF]
    try simp only [reduceIte]
    rw [readStringValueF_render f.2 hwv _ [] _ _ _ (by simp; omega)]
    try dsimp only
    simp [List.append_assoc]
  · simp only [renderField, List.cons_append, List.append_assoc, List.nil_append]
    simp only [streamLoopF]
    rw [skipSpaces_nonspace (by decide)]
    try dsimp only
    norm_num
    rw [skipSpaces_nonspace (by decide)]
    try dsimp only
    try norm_num
    rw [readStringF_render f.1 hwk _ [] _ (by omega)]
    try dsimp only
    rw [skipSpaces_nonspace (by decide)]
    try dsimp only
    try norm_num
    rw [skipSpaces_nonspace (by decide)]
    try dsimp only
    simp only [readValueF]
    try norm_num
    rw [readStringValueF_render f.2 hwv _ [] _ _ _ (by omega)]
    try dsimp only
    simp [List.append_assoc]

theorem fieldsTail_nil (b : Bool) : fieldsTail b [] = [] := by
  cases b <;> rfl

theorem streamLoopF_render :
    ∀ (fields : List JField), (∀ f ∈ fields, fieldWF f) →
    ∀ (first : Bool) (emitted : Bool) (chunks : List Bytes) (fuel : Nat),
      fields.length < fuel →
      streamLoopF fuel first (fieldsTail first fields ++ [125]) emitted chunks =
        (chunks ++ expectedChunks fields, none) := by
  intro fields
  induction fields with
  | nil =>
      intro _ first emitted chunks fuel hf
      cases fuel with
      | zero => omega
      | succ fl =>
          rw [fieldsTail_nil, List.nil_append]
          simp only [streamLoopF]
          rw [skipSpaces_nonspace (by decide)]
          dsimp only
          norm_num
          simp [expectedChunks]
  | cons f fs ih =>
      intro hwf first emitted chunks fuel hf
      have hwff : fieldWF f := hwf f (List.mem_cons_self _ _)
      have hwfs : ∀ x ∈ fs, fieldWF x := fun x hx => hwf x (List.mem_cons_of_mem _ hx)
      cases fuel with
      | zero => omega
      | succ fl =>
          have hf2 : fs.length < fl := by
            simp only [List.length_cons] at hf
            omega
          cases first with
          | true =>
              rw [show fieldsTail true (f :: fs) = renderField f ++ fieldsTail false fs
                    from rfl]
              rw [List.append_assoc]
              rw [(streamLoopF_step f hwff (fieldsTail false fs ++ [125]) fl emitted chunks).1]
              rw [ih hwfs false true _ fl hf2]
              simp [expectedChunks, List.append_assoc]
          | false =>
              rw [show fieldsTail false (f :: fs) = 44 :: (renderField f ++ fieldsTail false fs)
                    from rfl]
              rw [List.cons_append, List.append_assoc]
              rw [(streamLoopF_step f hwff (fieldsTail false fs ++ [125]) fl emitted chunks).2]
              rw [ih hwfs false true _ fl hf2]
              simp [expectedChunks, List.append_assoc]

theorem renderField_length_pos (f : JField) : 1 ≤ (renderField f).length := by
  simp [renderField]

theorem fieldsTail_length :
    ∀ (fields : List JField) (b : Bool), fields.length ≤ (fieldsTail b fields).length := by
  intro fields
  induction fields with
  | nil => intro b; simp [fieldsTail_nil]
  | cons f fs ih =>
      intro b
      cases b with
      | true =>
          show (f :: fs).length ≤ (renderField f ++ fieldsTail false fs).length
          have h1 := renderField_length_pos f
          have h2 := ih false
          simp only [List.length_cons, List.length_append]
          omega
      | false =>
          show (f :: fs).length ≤ (44 :: (renderField f ++ fieldsTail false fs)).length
          have h1 := renderField_length_pos f
          have h2 := ih false
          simp only [List.length_cons, List.length_append]
          omega

theorem expectedChunks_cons (f : JField) (fs : List JField) :
    expectedChunks (f :: fs) =
      [strDenote f.1 ++ [58, 10], ensureNL (strDenote f.2)] ++ expectedChunks fs := by
  simp [expectedChunks]

/-- Claim C3: (1) for every JSON object all of whose values are string
literals (keys and values given as well-formed sequences of plain bytes,
short escapes, unicode escapes and surrogate pairs), the decoder accepts the
input and the emitted chunks are, per field, the decoded key followed by a
colon and newline, then the decoded value with a trailing newline unless the
value already ends in one — so their concatenation is k1:\n v1 \n ... kN:\n
vN \n with idempotent trailing newlines and all escape sequences decoded;
(2) a nested object or array value is rejected with the unsupported-type
error after the key header. -/
theorem json_object_of_strings_stream :
    (∀ (fields : List JField), (∀ f ∈ fields, fieldWF f) →
       jsonStream (renderObj fields) = (expectedChunks fields, none) ∧
       (expectedChunks fields).flatten =
         fields.flatMap (fun f => strDenote f.1 ++ [58, 10] ++ ensureNL (strDenote f.2))) ∧
    (∀ (k : List StrElem), (∀ e ∈ k, elemWF e) → ∀ (b : Nat), b = 123 ∨ b = 91 →
       ∀ (rest : Bytes),
       jsonStream (123 :: 34 :: (strRender k ++ 34 :: 58 :: b :: rest)) =
         ([strDenote k ++ [58, 10]], some (true, .unsupported b))) := by
  constructor
  · intro fields hwf
    constructor
    · simp only [renderObj, jsonStream]
      rw [skipSpaces_nonspace (by decide)]
      dsimp only
      norm_num
      rw [streamLoopF_render fields hwf true false []
          ((fieldsTail true fields).length + 1 + 1)
          (by
            have := fieldsTail_length fields true
            omega)]
      simp
    · induction fields with
      | nil => simp [expectedChunks]
      | cons f fs ih =>
          have hwfs : ∀ x ∈ fs, fieldWF x := fun x hx => hwf x (List.mem_cons_of_mem _ hx)
          rw [expectedChunks_cons, List.flatten_append, ih hwfs, List.flatMap_cons]
          simp [List.append_assoc]
  · intro k hwk b hb rest
    simp only [jsonStream]
    rw [skipSpaces_nonspace (by decide)]
    dsimp only
    norm_num
    simp only [streamLoopF]
    rw [skipSpaces_nonspace (by decide)]
    dsimp only
    norm_num
    rw [readStringF_render k hwk _ [] _
        (by try simp only [List.length_append, List.length_cons]
            omega)]
    dsimp only
    rw [skipSpaces_nonspace (by decide)]
    dsimp only
    norm_num
    rw [skipSpaces_nonspace (by rcases hb with rfl | rfl <;> decide)]
    try dsimp only
    simp only [readValueF]
    rw [if_neg (by rcases hb with rfl | rfl <;> decide), if_pos hb]
    try dsimp only
    try simp

/-- Claim C3 witness: the object equation applied to the one-field object
with key k and value v. -/
theorem json_object_of_strings_stream_witness :
    jsonStream (renderObj [([StrElem.raw 107], [StrElem.raw 118])]) =
      (expectedChunks [([StrElem.raw 107], [StrElem.raw 118])], none) :=
  (json_object_of_strings_stream.1 [([StrElem.raw 107], [StrElem.raw 118])]
    (by
      intro f hf
      rcases List.mem_singleton.mp hf with rfl
      constructor
      · intro e he
        rcases List.mem_singleton.mp he with rfl
        exact ⟨by decide, by decide⟩
      · intro e he
        rcases List.mem_singleton.mp he with rfl
        exact ⟨by decide, by decide⟩)).1

-- --------------------------------------------------------------------- --
-- C4: partial-error classification
-- --------------------------------------------------------------------- --

theorem readStringValueF_inv :
    ∀ (fuel : Nat) (inp sb : Bytes) (emitted : Bool) (chunks : List Bytes),
      (emitted = true ↔ chunks ≠ []) →
      ((readStringValueF fuel inp sb emitted chunks).2.1 = true ↔
        (readStringValueF fuel inp sb emitted chunks).1 ≠ []) := by
  intro fuel
  induction fuel with
  | zero =>
      intro inp sb emitted chunks h
      simpa [readStringValueF] using h
  | succ f ih =>
      intro inp sb emitted chunks h
      cases inp with
      | nil =>
          simp only [readStringValueF]
          split
          · exact h
          · simp
      | cons b r =>
          simp only [readStringValueF]
          split
          · simp
          · split
            · split
              · split
                · exact h
                · simp
              · exact ih _ _ _ _ h
            · exact ih _ _ _ _ h

theorem readLiteralValueF_inv :
    ∀ (fuel : Nat) (inp sb : Bytes) (emitted : Bool) (chunks : List Bytes),
      (emitted = true ↔ chunks ≠ []) →
      ((readLiteralValueF fuel inp sb emitted chunks).2.1 = true ↔
        (readLiteralValueF fuel inp sb emitted chunks).1 ≠ []) := by
  intro fuel
  induction fuel with
  | zero =>
      intro inp sb emitted chunks h
      simpa [readLiteralValueF] using h
  | succ f ih =>
      intro inp sb emitted chunks h
      cases inp with
      | nil =>
          simp only [readLiteralValueF]
          split
          · exact h
          · simp
      | cons b r =>
          simp only [readLiteralValueF]
          split
          · split
            · exact h
            · simp
          · split
            · split
              · split
                · exact h
                · simp
              · split
                · exact h
                · simp
            · exact ih _ _ _ _ h

theorem readValueF_inv (inp : Bytes) (emitted : Bool) (chunks : List Bytes)
    (h : emitted = true ↔ chunks ≠ []) :
    ((readValueF inp emitted chunks).2.1 = true ↔ (readValueF inp emitted chunks).1 ≠ []) := by
  cases inp with
  | nil => simpa [readValueF] using h
  | cons b r =>
      simp only [readValueF]
      split
      · exact readStringValueF_inv _ _ _ _ _ h
      · split
        · exact h
        · exact readLiteralValueF_inv _ _ _ _ _ h

theorem streamLoopF_inv :
    ∀ (fuel : Nat) (first : Bool) (inp : Bytes) (emitted : Bool) (chunks chs : List Bytes)
      (pe : Bool × DErr),
      (emitted = true ↔ chunks ≠ []) →
      streamLoopF fuel first inp emitted chunks = (chs, some pe) →
      (pe.1 = true ↔ chs ≠ []) := by
  intro fuel
  induction fuel with
  | zero =>
      intro first inp emitted chunks chs pe h heq
      simp only [streamLoopF] at heq
      cases heq
      exact h
  | succ f ih =>
      intro first inp emitted chunks chs pe h heq
      simp only [streamLoopF] at heq
      split at heq
      · cases heq
        exact h
      · split at heq
        · cases heq
          exact h
        · split at heq
          · cases heq
          · split at heq
            · cases heq
              exact h
            · split at heq
              · cases heq
                exact h
              · split at heq
                · cases heq
                  exact h
                · split at heq
                  · cases heq
                    exact h
                  · split at heq
                    · cases heq
                      simp
                    · split at heq
                      · cases heq
                        simp
                      · split at heq
                        · cases heq
                          simp
                        · split at heq
                          · cases heq
                            simp
                          · rename_i key r3 hrs r4 hss col r5 hcol r6 hss2 out hveq
                            split at heq
                            · rename_i emitted2 r7 e hmatch
                              cases heq
                              have hv := readValueF_inv out true (chunks ++ [key ++ [58, 10]]) (by simp)
                              rw [hmatch] at hv
                              simpa using hv
                            · rename_i chunks2 emitted2 r7 hmatch
                              have hv := readValueF_inv out true (chunks ++ [key ++ [58, 10]]) (by simp)
                              rw [hmatch] at hv
                              exact ih _ _ _ _ _ _ (by simpa using hv) heq

/-- Claim C4: partial-error classification.  (1) Whenever the decoder returns
an error, its partial flag is set if and only if at least one chunk was
emitted; (2) on the truncated input of the spec scenario the key header and
the value prefix are emitted and the EOF error is partial; (3) in general,
for an object truncated inside a string value, the decoded prefix of that
value is emitted before the partial EOF error is returned. -/
theorem decoder_partial_error_classification :
    (∀ (inp : Bytes) (chunks : List Bytes) (pe : Bool × DErr),
        jsonStream inp = (chunks, some pe) → (pe.1 = true ↔ chunks ≠ [])) ∧
    jsonStream (123 :: bs "\"code_output\":\"partial value") =
      ([bs "code_output:\n", bs "partial value\n"], some (true, DErr.unexpectedEOF)) ∧
    (∀ (k : List StrElem), (∀ e ∈ k, elemWF e) →
     ∀ (vs : List StrElem), (∀ e ∈ vs, elemWF e) →
       jsonStream (123 :: 34 :: (strRender k ++ 34 :: 58 :: 34 :: strRender vs)) =
         ((strDenote k ++ [58, 10]) ::
            (if (strDenote vs).isEmpty then [] else [ensureNL (strDenote vs)]),
          some (true, DErr.unexpectedEOF))) := by
  refine ⟨?_, by rfl, ?_⟩
  · intro inp chunks pe heq
    simp only [jsonStream] at heq
    split at heq
    · cases heq
      simp
    · split at heq
      · cases heq
        simp
      · split at heq
        · cases heq
          simp
        · exact streamLoopF_inv _ _ _ _ _ _ _ (by simp) heq
  · intro k hwk vs hwv
    simp only [jsonStream]
    rw [skipSpaces_nonspace (by decide)]
    dsimp only
    norm_num
    simp only [streamLoopF]
    rw [skipSpaces_nonspace (by decide)]
    dsimp only
    norm_num
    rw [readStringF_render k hwk _ [] _
        (by try simp only [List.length_append, List.length_cons]
            omega)]
    dsimp only
    rw [skipSpaces_nonspace (by decide)]
    dsimp only
    norm_num
    rw [skipSpaces_nonspace (by decide)]
    try dsimp only
    simp only [readValueF]
    norm_num
    rw [readStringValueF_truncated vs hwv [] true _ _ (by omega)]
    try dsimp only
    by_cases hc : strDenote vs = [] <;> simp [hc, List.isEmpty_iff]

/-- Claim C4 witness: the classification applied to the lone opening brace
(nothing emitted, unwrapped error) and the prefix-emission equation applied
to the one-element key and value. -/
theorem decoder_partial_error_classification_witness :
    ((false, DErr.eof).1 = true ↔ ([] : List Bytes) ≠ []) ∧
    jsonStream (123 :: 34 :: (strRender [StrElem.raw 107] ++
        34 :: 58 :: 34 :: strRender [StrElem.raw 118])) =
      ((strDenote [StrElem.raw 107] ++ [58, 10]) ::
         (if (strDenote [StrElem.raw 118]).isEmpty then []
          else [ensureNL (strDenote [StrElem.raw 118])]),
       some (true, DErr.unexpectedEOF)) :=
  ⟨decoder_partial_error_classification.1 [123] [] (false, DErr.eof) (by rfl),
   decoder_partial_error_classification.2.2 [StrElem.raw 107]
     (by
       intro e he
       rcases List.mem_singleton.mp he with rfl
       exact ⟨by decide, by decide⟩)
     [StrElem.raw 118]
     (by
       intro e he
       rcases List.mem_singleton.mp he with rfl
       exact ⟨by decide, by decide⟩)⟩

-- --------------------------------------------------------------------- --
-- C2: the container's CodeInput document (code/container part_004)
-- --------------------------------------------------------------------- --

/-- The CDATA terminator sequence, the old string of MarshalXML's ReplaceAll. -/
def cpat : GoStr := [']', ']', '>']

/-- The CDATA opener written by MarshalXML. -/
def copen : GoStr := ['<', '!', '[', 'C', 'D', 'A', 'T', 'A', '[']

/-- The replacement MarshalXML substitutes for each CDATA terminator. -/
def crep : GoStr := [']', ']', ']', ']', '>', '<', '!', '[', 'C', 'D', 'A', 'T', 'A', '[', '>']

/-- strings.Index: position of the first occurrence of pat in s. -/
def goIndex : GoStr → GoStr → Option Nat
  | [], pat => if goHasPre [] pat then some 0 else none
  | c :: r, pat =>
      if goHasPre (c :: r) pat then some 0
      else (goIndex r pat).map (fun i => i + 1)

/-- strings.ReplaceAll, fuelled: replace leftmost non-overlapping occurrences
of old by new, left to right. -/
def goReplaceAllF : Nat → GoStr → GoStr → GoStr → GoStr
  | 0, s, _, _ => s
  | fuel + 1, s, old, new =>
      match goIndex s old with
      | none => s
      | some i => s.take i ++ new ++ goReplaceAllF fuel (s.drop (i + old.length)) old new

def goReplaceAll (s old new : GoStr) : GoStr := goReplaceAllF (s.length + 1) s old new

/-- CodeFile.MarshalXML: the injected innerxml payload for a file content,
the opener, the content with every terminator split, then the split
closer. -/
def cdataPayload (content : GoStr) : GoStr :=
  copen ++ goReplaceAll content cpat crep ++ [']', ']'] ++ ['>']

/-- Modelled from the spec: the receiving side's reading of the File
element's inner XML, concatenating the contents of consecutive CDATA
sections, each section running from the opener to the first terminator. -/
def cdataDecodeF : Nat → GoStr → Option GoStr
  | 0, _ => none
  | fuel + 1, s =>
      if s = [] then some []
      else if goHasPre s copen then
        match goIndex (s.drop 9) cpat with
        | none => none
        | some i =>
            match cdataDecodeF fuel ((s.drop 9).drop (i + 3)) with
            | none => none
            | some rest => some ((s.drop 9).take i ++ rest)
      else none

def cdataDecode (s : GoStr) : Option GoStr := cdataDecodeF (s.length + 1) s

/-- strings.TrimSpace. -/
def goTrimSpace (s : GoStr) : GoStr :=
  ((s.dropWhile goIsSpace).reverse.dropWhile goIsSpace).reverse

/-- The filter branch of BuildCodeInput: trimmed, nonempty, existing,
first-occurrence-deduplicated filter entries, in order. -/
def selectFiltered (files : List (GoStr × GoStr)) : List GoStr → List GoStr → List GoStr
  | [], _ => []
  | p :: ps, seen =>
      if goTrimSpace p = [] then selectFiltered files ps seen
      else if (lookupA files (goTrimSpace p)).isSome = false then selectFiltered files ps seen
      else if goTrimSpace p ∈ seen then selectFiltered files ps seen
      else goTrimSpace p :: selectFiltered files ps (goTrimSpace p :: seen)

/-- BuildCodeInput: select the paths (all keys when no filter is given,
else the filtered ones), sort them ascending, and pair each with its
content.  Go map iteration enters here only through the key set, which
sort.Strings then orders, so insertion order is a faithful rendering. -/
def buildCodeInput (files : List (GoStr × GoStr)) (flt : List GoStr) :
    List (GoStr × GoStr) :=
  (List.mergeSort
      (if flt = [] then files.map Prod.fst else selectFiltered files flt [])
      (fun a b => decide (a ≤ b))).map
    (fun p => (p, (lookupA files p).getD []))

theorem goHasPre_iff (s pat : GoStr) : goHasPre s pat = true ↔ pat <+: s := by
  simp [goHasPre, List.isPrefixOf_iff_prefix]

theorem goHasPre_three (c d e : Char) (X Y : GoStr) :
    goHasPre (c :: d :: e :: X) cpat = goHasPre (c :: d :: e :: Y) cpat := by
  simp [goHasPre, cpat, List.isPrefixOf]

theorem goHasPre_third_bracket (c d : Char) (X : GoStr) :
    goHasPre (c :: d :: ']' :: X) cpat = false := by
  simp [goHasPre, cpat, List.isPrefixOf]

theorem goIndex_cons_gt (s : GoStr) :
    goIndex ('>' :: s) cpat = (goIndex s cpat).map (fun i => i + 1) := by
  simp [goIndex, goHasPre, cpat, List.isPrefixOf]

theorem goIndex_some_decomp :
    ∀ (s : GoStr) (i : Nat), goIndex s cpat = some i →
      s = s.take i ++ cpat ++ s.drop (i + 3) ∧ goIndex (s.take i) cpat = none := by
  intro s
  induction s with
  | nil => intro i h; simp [goIndex, goHasPre, cpat, List.isPrefixOf] at h
  | cons c r ih =>
      intro i h
      simp only [goIndex] at h
      split at h
      · rename_i hpre
        cases h
        rw [goHasPre_iff] at hpre
        obtain ⟨t, ht⟩ := hpre
        constructor
        · rw [← ht]
          simp [cpat]
        · simp [goIndex, goHasPre, cpat, List.isPrefixOf]
      · rename_i hpre
        rw [Option.map_eq_some'] at h
        obtain ⟨j, hj, hji⟩ := h
        subst hji
        obtain ⟨hdec, hnone⟩ := ih j hj
        constructor
        · simp only [List.take_succ_cons, List.drop_succ_cons, List.cons_append]
          rw [← hdec]
        · simp only [List.take_succ_cons, goIndex]
          split
          · rename_i hpre2
            exfalso
            rw [goHasPre_iff] at hpre2
            have hcr : cpat <+: c :: r :=
              hpre2.trans (List.cons_prefix_cons.mpr ⟨rfl, List.take_prefix _ _⟩)
            exact absurd ((goHasPre_iff _ _).mpr hcr) (by simp [hpre])
          · simp [hnone]

theorem goIndex_none_parts {c : Char} {r : GoStr}
    (h : goIndex (c :: r) cpat = none) :
    goHasPre (c :: r) cpat = false ∧ goIndex r cpat = none := by
  simp only [goIndex] at h
  split at h
  · cases h
  · rename_i hpre
    refine ⟨by simpa using hpre, ?_⟩
    simpa [Option.map_eq_none'] using h

theorem goIndex_none_build {c : Char} {r : GoStr}
    (h1 : goHasPre (c :: r) cpat = false) (h2 : goIndex r cpat = none) :
    goIndex (c :: r) cpat = none := by
  simp [goIndex, h1, h2]

theorem goIndex_none_append2 :
    ∀ (s : GoStr), goIndex s cpat = none → goIndex (s ++ [']', ']']) cpat = none := by
  intro s
  induction s with
  | nil => intro h; decide
  | cons c r ih =>
      intro h
      obtain ⟨hpre, hr⟩ := goIndex_none_parts h
      match r with
      | [] => simp [goIndex, goHasPre, cpat, List.isPrefixOf]
      | [d] => simp [goIndex, goHasPre, cpat, List.isPrefixOf]
      | d :: e :: r2 =>
          simp only [List.cons_append]
          refine goIndex_none_build ?_ ?_
          · exact (goHasPre_three c d e (r2 ++ [']', ']']) r2).trans hpre
          · have := ih hr
            simpa [List.cons_append] using this

theorem goIndex_cons_some0 {c : Char} {r : GoStr} (h : goHasPre (c :: r) cpat = true) :
    goIndex (c :: r) cpat = some 0 := by
  simp [goIndex, h]

theorem goIndex_some_build {c : Char} {r : GoStr} {i : Nat}
    (h1 : goHasPre (c :: r) cpat = false) (h2 : goIndex r cpat = some i) :
    goIndex (c :: r) cpat = some (i + 1) := by
  simp [goIndex, h1, h2]

theorem goIndex_free_append :
    ∀ (q : GoStr), goIndex q cpat = none → ∀ (T : GoStr),
      goIndex (q ++ (cpat ++ T)) cpat = some q.length := by
  intro q
  induction q with
  | nil =>
      intro _ T
      show goIndex (']' :: (']' :: '>' :: T)) cpat = some 0
      exact goIndex_cons_some0 (by simp [goHasPre, cpat, List.isPrefixOf])
  | cons c r ih =>
      intro h T
      obtain ⟨hpre, hr⟩ := goIndex_none_parts h
      have hrec := ih hr T
      have hstep : goHasPre (c :: (r ++ (cpat ++ T))) cpat = false := by
        match r with
        | [] => exact goHasPre_third_bracket c ']' ('>' :: T)
        | [d] => exact goHasPre_third_bracket c d (']' :: '>' :: T)
        | d :: e :: r2 =>
            show goHasPre (c :: d :: e :: (r2 ++ (cpat ++ T))) cpat = false
            exact (goHasPre_three c d e (r2 ++ (cpat ++ T)) r2).trans hpre
      have hout := goIndex_some_build hstep hrec
      simpa using hout

theorem cdataDecodeF_nil (f : Nat) (h : 0 < f) : cdataDecodeF f [] = some [] := by
  cases f with
  | zero => omega
  | succ g => simp [cdataDecodeF]

theorem goReplaceAllF_length :
    ∀ (f : Nat) (s : GoStr), s.length ≤ (goReplaceAllF f s cpat crep).length := by
  intro f
  induction f with
  | zero => intro s; simp [goReplaceAllF]
  | succ g ih =>
      intro s
      simp only [goReplaceAllF]
      split
      · exact Nat.le_refl _
      · rename_i i hidx
        obtain ⟨hdec, -⟩ := goIndex_some_decomp s i hidx
        have hlen : s.length = (s.take i).length + 3 + (s.drop (i + 3)).length := by
          conv_lhs => rw [hdec]
          simp [cpat]
          omega
        have h3 : i + cpat.length = i + 3 := rfl
        rw [h3]
        have hrec := ih (s.drop (i + 3))
        have hcl : crep.length = 15 := rfl
        simp only [List.length_append, hcl]
        omega

theorem cdataDecodeF_round :
    ∀ (n : Nat) (s pre : GoStr) (f1 f2 : Nat),
      s.length ≤ n → (pre = [] ∨ pre = ['>']) →
      s.length + 1 < f1 → s.length < f2 →
      cdataDecodeF f1 (copen ++ (pre ++ (goReplaceAllF f2 s cpat crep ++ cpat))) =
        some (pre ++ s) := by
  intro n
  induction n with
  | zero =>
      intro s pre f1 f2 hn hpre h1 h2
      have hs : s = [] := List.length_eq_zero.mp (Nat.le_zero.mp hn)
      subst hs
      cases f1 with
      | zero => omega
      | succ g1 =>
          cases f2 with
          | zero => omega
          | succ g2 =>
              have hidx : goIndex ([] : GoStr) cpat = none := by decide
              simp only [goReplaceAllF, hidx]
              have hq : goIndex (pre ++ ([] : GoStr)) cpat = none := by
                rcases hpre with rfl | rfl
                · decide
                · decide
              simp only [cdataDecodeF]
              rw [if_neg (by simp [copen])]
              rw [if_pos ((goHasPre_iff _ _).mpr (List.prefix_append _ _))]
              rw [List.drop_left' (show copen.length = 9 from rfl)]
              have hbody : pre ++ (([] : GoStr) ++ cpat) = (pre ++ []) ++ (cpat ++ []) := by
                simp
              rw [hbody]
              rw [goIndex_free_append _ hq []]
              dsimp only
              have hdrop : ((pre ++ ([] : GoStr)) ++ (cpat ++ [])).drop
                  ((pre ++ ([] : GoStr)).length + 3) = [] :=
                List.drop_eq_nil_of_le (by
                  simp only [List.length_append, List.length_cons, List.length_nil, cpat]
                  omega)
              rw [hdrop]
              rw [List.take_left]
              rw [cdataDecodeF_nil g1 (by omega)]
              simp
  | succ n ih =>
      intro s pre f1 f2 hn hpre h1 h2
      cases f1 with
      | zero => omega
      | succ g1 =>
          cases f2 with
          | zero => omega
          | succ g2 =>
              cases hidx : goIndex s cpat with
              | none =>
                  simp only [goReplaceAllF, hidx]
                  have hq : goIndex (pre ++ s) cpat = none := by
                    rcases hpre with rfl | rfl
                    · simpa using hidx
                    · show goIndex ('>' :: s) cpat = none
                      rw [goIndex_cons_gt, hidx]
                      rfl
                  simp only [cdataDecodeF]
                  rw [if_neg (by simp [copen])]
                  rw [if_pos ((goHasPre_iff _ _).mpr (List.prefix_append _ _))]
                  rw [List.drop_left' (show copen.length = 9 from rfl)]
                  have hbody : pre ++ (s ++ cpat) = (pre ++ s) ++ (cpat ++ []) := by
                    simp [List.append_assoc]
                  rw [hbody]
                  rw [goIndex_free_append _ hq []]
                  dsimp only
                  have hdrop : ((pre ++ s) ++ (cpat ++ [])).drop ((pre ++ s).length + 3) = [] :=
                    List.drop_eq_nil_of_le (by
                      simp only [List.length_append, List.length_cons, List.length_nil, cpat]
                      omega)
                  rw [hdrop]
                  rw [List.take_left]
                  rw [cdataDecodeF_nil g1 (by omega)]
                  simp
              | some i =>
                  simp only [goReplaceAllF, hidx]
                  obtain ⟨hdec, hfree⟩ := goIndex_some_decomp s i hidx
                  have h3 : i + cpat.length = i + 3 := rfl
                  rw [h3]
                  have hlen : s.length = (s.take i).length + 3 + (s.drop (i + 3)).length := by
                    conv_lhs => rw [hdec]
                    simp [cpat]
                    omega
                  have hq : goIndex (pre ++ (s.take i ++ [']', ']'])) cpat = none := by
                    have h2b := goIndex_none_append2 _ hfree
                    rcases hpre with rfl | rfl
                    · simpa using h2b
                    · show goIndex ('>' :: (s.take i ++ [']', ']'])) cpat = none
                      rw [goIndex_cons_gt, h2b]
                      rfl
                  simp only [cdataDecodeF]
                  rw [if_neg (by simp [copen])]
                  rw [if_pos ((goHasPre_iff _ _).mpr (List.prefix_append _ _))]
                  rw [List.drop_left' (show copen.length = 9 from rfl)]
                  have hbody : pre ++ ((s.take i ++ crep ++ goReplaceAllF g2 (s.drop (i + 3)) cpat crep) ++ cpat) =
                      (pre ++ (s.take i ++ [']', ']'])) ++
                        (cpat ++ (copen ++ (['>'] ++ (goReplaceAllF g2 (s.drop (i + 3)) cpat crep ++ cpat)))) := by
                    rw [show crep = [']', ']'] ++ (cpat ++ (copen ++ ['>'])) from rfl]
                    simp [List.append_assoc]
                  rw [hbody]
                  rw [goIndex_free_append _ hq _]
                  dsimp only
                  have hassoc : (pre ++ (s.take i ++ [']', ']'])) ++
                        (cpat ++ (copen ++ (['>'] ++ (goReplaceAllF g2 (s.drop (i + 3)) cpat crep ++ cpat)))) =
                      ((pre ++ (s.take i ++ [']', ']'])) ++ cpat) ++
                        (copen ++ (['>'] ++ (goReplaceAllF g2 (s.drop (i + 3)) cpat crep ++ cpat))) := by
                    simp [List.append_assoc]
                  have hdlen : ((pre ++ (s.take i ++ [']', ']'])) ++ cpat).length =
                      (pre ++ (s.take i ++ [']', ']'])).length + 3 := by
                    simp only [List.length_append, List.length_cons, List.length_nil, cpat]
                  have hdrop : ((pre ++ (s.take i ++ [']', ']'])) ++
                        (cpat ++ (copen ++ (['>'] ++ (goReplaceAllF g2 (s.drop (i + 3)) cpat crep ++ cpat))))).drop
                          ((pre ++ (s.take i ++ [']', ']'])).length + 3) =
                      copen ++ (['>'] ++ (goReplaceAllF g2 (s.drop (i + 3)) cpat crep ++ cpat)) := by
                    rw [hassoc]
                    exact List.drop_left' hdlen
                  rw [hdrop]
                  rw [ih (s.drop (i + 3)) ['>'] g1 g2 (by omega) (Or.inr rfl) (by omega) (by omega)]
                  rw [List.take_left]
                  rw [Option.some.injEq]
                  conv_rhs => rw [hdec]
                  simp [cpat, List.append_assoc]

theorem cdataDecode_payload (s : GoStr) : cdataDecode (cdataPayload s) = some s := by
  have hge : s.length ≤ (goReplaceAllF (s.length + 1) s cpat crep).length :=
    goReplaceAllF_length (s.length + 1) s
  have hsh : cdataPayload s =
      copen ++ (([] : GoStr) ++ (goReplaceAllF (s.length + 1) s cpat crep ++ cpat)) := by
    simp [cdataPayload, goReplaceAll, cpat, List.append_assoc]
  rw [cdataDecode, hsh]
  have hrt := cdataDecodeF_round s.length s []
      ((copen ++ (([] : GoStr) ++ (goReplaceAllF (s.length + 1) s cpat crep ++ cpat))).length + 1)
      (s.length + 1) (Nat.le_refl _) (Or.inl rfl)
      (by
        simp only [List.length_append, List.length_nil]
        have h9 : copen.length = 9 := rfl
        have h3 : cpat.length = 3 := rfl
        omega)
      (by omega)
  simpa using hrt

theorem selectFiltered_mem :
    ∀ (files : List (GoStr × GoStr)) (ps seen : List GoStr) (q : GoStr),
      q ∈ selectFiltered files ps seen → (lookupA files q).isSome = true := by
  intro files ps
  induction ps with
  | nil => intro seen q h; simp [selectFiltered] at h
  | cons p ps ih =>
      intro seen q h
      simp only [selectFiltered] at h
      split at h
      · exact ih _ _ h
      · split at h
        · exact ih _ _ h
        · split at h
          · exact ih _ _ h
          · rcases List.mem_cons.mp h with rfl | h2
            · rename_i h1 _
              rw [Option.isSome_iff_ne_none]
              simpa using h1
            · exact ih _ _ h2

theorem lookupA_isSome_of_mem :
    ∀ (files : List (GoStr × GoStr)) (p : GoStr),
      p ∈ files.map Prod.fst → (lookupA files p).isSome = true := by
  intro files
  induction files with
  | nil => intro p h; simp at h
  | cons f fs ih =>
      intro p h
      obtain ⟨k, v⟩ := f
      simp only [List.map_cons, List.mem_cons] at h
      simp only [lookupA]
      split
      · rfl
      · rename_i hne
        rcases h with rfl | h2
        · exact absurd rfl hne
        · exact ih p h2

theorem buildCodeInput_sorted (files : List (GoStr × GoStr)) (flt : List GoStr) :
    ((buildCodeInput files flt).map Prod.fst).Pairwise (fun a b => a ≤ b) := by
  have htrans : ∀ a b c : GoStr, (decide (a ≤ b)) = true →
      (decide (b ≤ c)) = true → (decide (a ≤ c)) = true := by
    intro a b c hab hbc
    simp only [decide_eq_true_eq] at hab hbc ⊢
    exact le_trans hab hbc
  have htot : ∀ a b : GoStr, ((decide (a ≤ b)) || (decide (b ≤ a))) = true := by
    intro a b
    simp [le_total]
  have hs := List.sorted_mergeSort htrans htot
      (if flt = [] then files.map Prod.fst else selectFiltered files flt [])
  have hmap : (buildCodeInput files flt).map Prod.fst =
      List.mergeSort (if flt = [] then files.map Prod.fst else selectFiltered files flt [])
        (fun a b => decide (a ≤ b)) := by
    simp only [buildCodeInput, List.map_map]
    rw [show (Prod.fst ∘ fun p : GoStr => (p, (lookupA files p).getD [])) = id from rfl]
    exact List.map_id _
  rw [hmap]
  exact hs.imp (by intro a b hab; simpa using hab)

theorem buildCodeInput_content (files : List (GoStr × GoStr)) (flt : List GoStr)
    (pc : GoStr × GoStr) (h : pc ∈ buildCodeInput files flt) :
    lookupA files pc.1 = some pc.2 := by
  simp only [buildCodeInput, List.mem_map] at h
  obtain ⟨p, hp, rfl⟩ := h
  rw [List.mem_mergeSort] at hp
  have hsome : (lookupA files p).isSome = true := by
    split at hp
    · exact lookupA_isSome_of_mem files p hp
    · exact selectFiltered_mem files flt [] p hp
  obtain ⟨v, hv⟩ := Option.isSome_iff_exists.mp hsome
  simp [hv]

/-- Claim C2: XML CDATA round-trip and sorted rendering.  MarshalXML wraps
each file content in a CDATA section with every occurrence of the terminator
split into the safe sequence, and reading the CDATA sections back
concatenated yields exactly the original content, for every content
including ones containing the terminator; the files BuildCodeInput renders
are sorted ascending by path, and each carries the content the mapping holds
for its path. -/
theorem cdata_roundtrip_sorted :
    (∀ s : GoStr, cdataDecode (cdataPayload s) = some s) ∧
    (∀ (files : List (GoStr × GoStr)) (flt : List GoStr),
        ((buildCodeInput files flt).map Prod.fst).Pairwise (fun a b => a ≤ b)) ∧
    (∀ (files : List (GoStr × GoStr)) (flt : List GoStr) (pc : GoStr × GoStr),
        pc ∈ buildCodeInput files flt → lookupA files pc.1 = some pc.2) :=
  ⟨cdataDecode_payload, buildCodeInput_sorted, buildCodeInput_content⟩

/-- Claim C2 witness: the content lookup conjunct applied to a one-file
mapping rendered without a filter. -/
theorem cdata_roundtrip_sorted_witness :
    lookupA [((['a'] : GoStr), (['x'] : GoStr))] (['a'], ['x']).1 = some (['a'], ['x']).2 :=
  cdata_roundtrip_sorted.2.2 [(['a'], ['x'])] [] (['a'], ['x'])
    (by simp [buildCodeInput, List.mem_mergeSort, lookupA])
